/-
Verification development for the `ardent` retained-mode 2D scene graph
(crates `ardent-core` and `ardent-render`).

The Rust sources are shallowly embedded:
  * `std::collections::HashMap<NodeId, V>` is embedded as `Table V`, an
    association list whose `get`/`insert`/`erase` have exactly the
    `HashMap` semantics used by the code (`get`, `insert` replacing an
    existing key, `remove`).  The code never iterates over the map, so
    entry order is irrelevant.
  * `NodeId(u64)` is embedded as `Nat`: ids come from an atomic counter
    that is never expected to wrap (`AtomicU64::fetch_add` starting at 1),
    and only equality of ids is ever used.
  * `f32` scalar fields (transforms, rectangle extents, colors, stroke
    widths) are embedded as `Int`.  No claim depends on float arithmetic:
    the code only stores these values and hands shapes to the external
    tessellation delegate, which is a parameter of the embedding.
  * The boxed event callback `EventHandler` is embedded as an opaque
    token (`Nat`); only its presence or absence is ever observed here.
  * Panics (`Scene::add_node` panics on a missing parent) are embedded as
    an explicit `AttachOutcome.panicked` outcome.
  * The external tessellation delegate (`lyon`'s
    `FillTessellator::tessellate_path` driven through `Tesselate`) is a
    parameter `Delegate : Shape → Bool × List Vertex`: a success flag
    (the `Result` which `Tesselate::tesselate` discards with `let _ =`)
    together with the vertices it wrote into the output geometry.
-/
import Mathlib

set_option maxHeartbeats 1600000

namespace Ardent

/-! ## `Table`: the `HashMap<NodeId, V>` embedding -/

/-- Embedding of `std::collections::HashMap` keyed by node ids.
Only `get` / `insert` (replace-or-add) / `remove` are used by the code. -/
structure Table (α : Type) where
  entries : List (Nat × α)
deriving DecidableEq

namespace Table

variable {α : Type}

def empty : Table α := ⟨[]⟩

def getEntries : List (Nat × α) → Nat → Option α
  | [], _ => none
  | (k', v) :: rest, k => if k' = k then some v else getEntries rest k

/-- `HashMap::get`. -/
def get (t : Table α) (k : Nat) : Option α := getEntries t.entries k

def insertEntries : List (Nat × α) → Nat → α → List (Nat × α)
  | [], k, v => [(k, v)]
  | (k', v') :: rest, k, v =>
      if k' = k then (k, v) :: rest else (k', v') :: insertEntries rest k v

/-- `HashMap::insert`: replaces the value when the key is present. -/
def insert (t : Table α) (k : Nat) (v : α) : Table α := ⟨insertEntries t.entries k v⟩

/-- `HashMap::remove` (the removed value, when needed, is read via `get` first). -/
def erase (t : Table α) (k : Nat) : Table α := ⟨t.entries.filter (fun e => e.1 != k)⟩

def keys (t : Table α) : List Nat := t.entries.map Prod.fst

def size (t : Table α) : Nat := t.entries.length

@[simp] theorem get_empty (k : Nat) : (empty : Table α).get k = none := rfl

theorem getEntries_insertEntries_self (l : List (Nat × α)) (k : Nat) (v : α) :
    getEntries (insertEntries l k v) k = some v := by
  induction l with
  | nil => simp [insertEntries, getEntries]
  | cons e rest ih =>
      by_cases h : e.1 = k
      · simp [insertEntries, h, getEntries]
      · simp [insertEntries, h, getEntries, ih]

theorem getEntries_insertEntries_ne (l : List (Nat × α)) (k k' : Nat) (v : α) (h : k' ≠ k) :
    getEntries (insertEntries l k v) k' = getEntries l k' := by
  induction l with
  | nil => simp [insertEntries, getEntries, Ne.symm h]
  | cons e rest ih =>
      by_cases he : e.1 = k
      · have hk : e.1 ≠ k' := by rw [he]; exact Ne.symm h
        simp [insertEntries, he, getEntries, Ne.symm h, hk]
      · by_cases hk : e.1 = k'
        · simp [insertEntries, getEntries, he, hk, h]
        · simp [insertEntries, getEntries, he, hk, ih]

theorem get_insert_self (t : Table α) (k : Nat) (v : α) : (t.insert k v).get k = some v :=
  getEntries_insertEntries_self t.entries k v

theorem get_insert_ne (t : Table α) (k k' : Nat) (v : α) (h : k' ≠ k) :
    (t.insert k v).get k' = t.get k' :=
  getEntries_insertEntries_ne t.entries k k' v h

theorem getEntries_filterNe_self (l : List (Nat × α)) (k : Nat) :
    getEntries (l.filter (fun e => e.1 != k)) k = none := by
  induction l with
  | nil => rfl
  | cons e rest ih =>
      by_cases h : e.1 = k
      · simp [List.filter_cons, h, ih]
      · simp [List.filter_cons, h, getEntries, ih]

theorem getEntries_filterNe_ne (l : List (Nat × α)) (k k' : Nat) (h : k' ≠ k) :
    getEntries (l.filter (fun e => e.1 != k)) k' = getEntries l k' := by
  induction l with
  | nil => rfl
  | cons e rest ih =>
      by_cases hk : e.1 = k
      · have hne : e.1 ≠ k' := by rw [hk]; exact Ne.symm h
        simp [List.filter_cons, hk, getEntries, hne, Ne.symm h, ih]
      · by_cases hk' : e.1 = k'
        · simp [List.filter_cons, hk, getEntries, hk', h]
        · simp [List.filter_cons, hk, getEntries, hk', h, ih]

theorem get_erase_self (t : Table α) (k : Nat) : (t.erase k).get k = none :=
  getEntries_filterNe_self t.entries k

theorem get_erase_ne (t : Table α) (k k' : Nat) (h : k' ≠ k) :
    (t.erase k).get k' = t.get k' :=
  getEntries_filterNe_ne t.entries k k' h

theorem getEntries_mem {l : List (Nat × α)} {k : Nat} {v : α}
    (h : getEntries l k = some v) : (k, v) ∈ l := by
  induction l with
  | nil => simp [getEntries] at h
  | cons e rest ih =>
      by_cases he : e.1 = k
      · simp [getEntries, he] at h
        have : e = (k, v) := by
          obtain ⟨a, b⟩ := e
          simp only at he h
          simp [he, h]
        rw [this]
        exact List.mem_cons_self _ _
      · simp [getEntries, he] at h
        right
        exact ih h

theorem get_eq_some_mem {t : Table α} {k : Nat} {v : α} (h : t.get k = some v) :
    (k, v) ∈ t.entries := getEntries_mem h

theorem mem_keys_of_get {t : Table α} {k : Nat} {v : α} (h : t.get k = some v) :
    k ∈ t.keys :=
  List.mem_map.2 ⟨(k, v), get_eq_some_mem h, rfl⟩

theorem getEntries_eq_none_of_not_mem {l : List (Nat × α)} {k : Nat}
    (h : k ∉ l.map Prod.fst) : getEntries l k = none := by
  induction l with
  | nil => rfl
  | cons e rest ih =>
      simp only [List.map_cons, List.mem_cons, not_or] at h
      have he : e.1 ≠ k := fun hh => h.1 hh.symm
      simp [getEntries, he, ih h.2]

theorem get_eq_none_of_not_mem_keys {t : Table α} {k : Nat} (h : k ∉ t.keys) :
    t.get k = none := getEntries_eq_none_of_not_mem h

theorem exists_getEntries_of_mem {l : List (Nat × α)} {k : Nat}
    (h : k ∈ l.map Prod.fst) : ∃ v, getEntries l k = some v := by
  induction l with
  | nil => simp at h
  | cons e rest ih =>
      by_cases he : e.1 = k
      · exact ⟨e.2, by simp [getEntries, he]⟩
      · simp only [List.map_cons, List.mem_cons] at h
        rcases h with h | h
        · exact absurd h.symm he
        · simpa [getEntries, he] using ih h

theorem exists_get_of_mem_keys {t : Table α} {k : Nat} (h : k ∈ t.keys) :
    ∃ v, t.get k = some v := exists_getEntries_of_mem h

theorem insertEntries_keys_present {l : List (Nat × α)} {k : Nat} {w : α}
    (h : getEntries l k = some w) (v : α) :
    (insertEntries l k v).map Prod.fst = l.map Prod.fst := by
  induction l with
  | nil => simp [getEntries] at h
  | cons e rest ih =>
      by_cases he : e.1 = k
      · simp [insertEntries, he]
      · simp [getEntries, he] at h
        simp [insertEntries, he, ih h]

theorem insertEntries_keys_absent {l : List (Nat × α)} {k : Nat}
    (h : getEntries l k = none) (v : α) :
    (insertEntries l k v).map Prod.fst = l.map Prod.fst ++ [k] := by
  induction l with
  | nil => simp [insertEntries]
  | cons e rest ih =>
      by_cases he : e.1 = k
      · simp [getEntries, he] at h
      · simp [getEntries, he] at h
        simp [insertEntries, he, ih h]

theorem keys_insert_present {t : Table α} {k : Nat} {w : α} (h : t.get k = some w) (v : α) :
    (t.insert k v).keys = t.keys := insertEntries_keys_present h v

theorem keys_insert_absent {t : Table α} {k : Nat} (h : t.get k = none) (v : α) :
    (t.insert k v).keys = t.keys ++ [k] := insertEntries_keys_absent h v

theorem keys_erase_sublist (t : Table α) (k : Nat) : (t.erase k).keys.Sublist t.keys := by
  unfold keys erase
  exact (List.filter_sublist _).map Prod.fst

theorem nodup_keys_erase {t : Table α} (h : t.keys.Nodup) (k : Nat) :
    (t.erase k).keys.Nodup := (keys_erase_sublist t k).nodup h

theorem nodup_keys_insert {t : Table α} (h : t.keys.Nodup) (k : Nat) (v : α) :
    (t.insert k v).keys.Nodup := by
  cases hg : t.get k with
  | some w =>
      rw [keys_insert_present hg]
      exact h
  | none =>
      rw [keys_insert_absent hg]
      have hk : k ∉ t.keys := fun hk => by
        obtain ⟨v', hv'⟩ := exists_get_of_mem_keys hk
        rw [hg] at hv'
        cases hv'
      simp [List.nodup_append, h, hk]

theorem size_insert_present {t : Table α} {k : Nat} {w : α} (h : t.get k = some w) (v : α) :
    (t.insert k v).size = t.size := by
  have h1 := congrArg List.length (keys_insert_present h v)
  unfold keys at h1
  simpa [size] using h1

theorem lengthEntries_filterNe_lt {l : List (Nat × α)} {k : Nat} {w : α}
    (h : getEntries l k = some w) :
    (l.filter (fun e => e.1 != k)).length < l.length := by
  induction l with
  | nil => simp [getEntries] at h
  | cons e rest ih =>
      by_cases he : e.1 = k
      · simp only [List.filter_cons]
        have hb : (e.1 != k) = false := by simp [he]
        rw [hb]
        simp only [List.length_cons, Bool.false_eq_true, if_false]
        exact Nat.lt_succ_of_le (List.length_filter_le _ _)
      · simp [getEntries, he] at h
        simp only [List.filter_cons]
        have hb : (e.1 != k) = true := by simp [he]
        rw [hb]
        simpa using ih h

theorem size_erase_lt {t : Table α} {k : Nat} {w : α} (h : t.get k = some w) :
    (t.erase k).size < t.size := lengthEntries_filterNe_lt h

theorem get_erase (t : Table α) (k k' : Nat) :
    (t.erase k).get k' = if k' = k then none else t.get k' := by
  by_cases h : k' = k
  · simp [h, get_erase_self]
  · simp [h, get_erase_ne t k k' h]

theorem get_insert (t : Table α) (k k' : Nat) (v : α) :
    (t.insert k v).get k' = if k' = k then some v else t.get k' := by
  by_cases h : k' = k
  · simp [h, get_insert_self]
  · simp [h, get_insert_ne t k k' v h]

end Table

/-! ## Value types (`ardent-core`) -/

/-- `Transform` (`transform.rs`): translation, scale, rotation.  `f32`
components are embedded as `Int`; no claim performs arithmetic on them. -/
structure Transform where
  translate : Int × Int
  scale : Int × Int
  rotate : Int
deriving DecidableEq

instance : Inhabited Transform := ⟨⟨(0, 0), (1, 1), 0⟩⟩

/-- `Transform::default()`. -/
def Transform.default : Transform := ⟨(0, 0), (1, 1), 0⟩

/-- `Rect` (`shape/rect.rs`). -/
structure Rect where
  width : Int
  height : Int
deriving DecidableEq

/-- `Shape` (`shape.rs`): currently only the rectangle variant. -/
inductive Shape where
  | rect (r : Rect)
deriving DecidableEq

/-- `Color` (`style/color.rs`): RGBA components embedded as `Int`. -/
structure Color where
  r : Int
  g : Int
  b : Int
  a : Int
deriving DecidableEq

/-- `Gradient` (`style/gradient.rs`, not under `src/`; the spec calls it a
"reserved gradient slot", currently unused).  Modelled from the spec: an
opaque placeholder value. -/
structure Gradient where
  tag : Nat
deriving DecidableEq

/-- `Fill` (`style/fill.rs`). -/
structure Fill where
  color : Color
  gradient : Option Gradient
deriving DecidableEq

/-- `StrokeAlign` (`style/stroke.rs`). -/
inductive StrokeAlign where
  | center
  | inside
  | outside
deriving DecidableEq

/-- `Stroke` (`style/stroke.rs`). -/
structure Stroke where
  color : Color
  width : Int
  align : StrokeAlign
deriving DecidableEq

/-- `Style` (`style.rs`). -/
structure Style where
  fill : Option Fill
  stroke : Option Stroke
deriving DecidableEq

/-- `Style::default()`. -/
def Style.default : Style := ⟨none, none⟩

/-- The boxed event callback `EventHandler` (`event.rs`), embedded as an
opaque token: only presence/absence is observed by any claim. -/
abbrev EventHandler := Nat

/-! ## `Node` (`node.rs`) -/

/-- A scene-graph node (`node.rs`).  The `NodeId` key is a `Nat`. -/
structure Node where
  id : Nat
  parent : Option Nat
  children : List Nat
  transform : Transform
  shape : Option Shape
  style : Style
  on_event : Option EventHandler
  dirty : Bool
deriving DecidableEq

namespace Node

/-- `Node::new()`, with the id produced by the (global, atomic) allocator
passed explicitly.  Fresh nodes are dirty, childless and parentless. -/
def new (id : Nat) : Node :=
  { id := id
    parent := none
    children := []
    transform := Transform.default
    shape := none
    style := Style.default
    on_event := none
    dirty := true }

/-- `Node::set_parent`. -/
def set_parent (n : Node) (parent : Nat) : Node := { n with parent := some parent }

/-- `Node::add_child`. -/
def add_child (n : Node) (child : Nat) : Node := { n with children := n.children ++ [child] }

/-- `Node::remove_child`: `children.retain(|&id| id != child)`. -/
def remove_child (n : Node) (child : Nat) : Node :=
  { n with children := n.children.filter (fun i => i != child) }

/-- `Node::set_shape`. -/
def set_shape (n : Node) (shape : Shape) : Node := { n with shape := some shape }

/-- `Node::clear_shape`. -/
def clear_shape (n : Node) : Node := { n with shape := none }

/-- A write through `Node::transform_mut()` (the only way the code exposes
to change the transform). -/
def with_transform (n : Node) (t : Transform) : Node := { n with transform := t }

/-- A write through `Node::style_mut()`. -/
def with_style (n : Node) (s : Style) : Node := { n with style := s }

/-- `Node::set_event_handler`. -/
def set_event_handler (n : Node) (h : EventHandler) : Node := { n with on_event := some h }

/-- `Node::clear_event_handler`. -/
def clear_event_handler (n : Node) : Node := { n with on_event := none }

/-- `Node::is_dirty`. -/
def is_dirty (n : Node) : Bool := n.dirty

/-- `Node::mark_dirty`. -/
def mark_dirty (n : Node) : Node := { n with dirty := true }

/-- `Node::clear_dirty`. -/
def clear_dirty (n : Node) : Node := { n with dirty := false }

@[simp] theorem id_set_parent (n : Node) (p : Nat) : (n.set_parent p).id = n.id := rfl
@[simp] theorem parent_set_parent (n : Node) (p : Nat) : (n.set_parent p).parent = some p := rfl
@[simp] theorem id_new (i : Nat) : (Node.new i).id = i := rfl

end Node

/-! ## `Scene` (`scene.rs`) -/

/-- The scene graph (`scene.rs`): a flat id-keyed map of nodes plus the
distinguished root id. -/
structure Scene where
  nodes : Table Node
  root : Nat
deriving DecidableEq

/-- Outcome of `Scene::add_node`.  The source `panic!`s when the parent is
missing; `panicked` embeds that diverging outcome.  `missingParent`
embeds the *spec's* prescribed recoverable failure (spec §4.3/§7: "Fails
with a `MissingParent` condition … the element is not inserted"); the
source never produces it, which is what the C1 analysis is about. -/
inductive AttachOutcome where
  | ok (s : Scene)
  | missingParent (s : Scene)
  | panicked
deriving DecidableEq

namespace Scene

/-- `Scene::new()`, with the root id produced by the allocator passed
explicitly (the allocator starts at 1). -/
def new (rootId : Nat) : Scene :=
  { nodes := Table.empty.insert rootId (Node.new rootId)
    root := rootId }

/-- `Scene::root`. -/
def rootId (s : Scene) : Nat := s.root

/-- `Scene::get_node`. -/
def get_node (s : Scene) (id : Nat) : Option Node := s.nodes.get id

/-- `Scene::add_node`: sets the child's parent, appends the child id to the
parent's children, inserts the child; panics when `parent` is absent
(`unwrap_or_else(|| panic!(..))`), in which case the insertion below the
panic is never reached. -/
def add_node (s : Scene) (parent : Nat) (node : Node) : AttachOutcome :=
  let node' := node.set_parent parent
  match s.nodes.get parent with
  | none => .panicked
  | some parentNode =>
      .ok { s with
              nodes := (s.nodes.insert parent (parentNode.add_child node'.id)).insert
                         node'.id node' }

/-- The body of `Scene::remove_node` once the node has been taken out of the
map: detach `id` from its parent's children list (a no-op when the parent
is itself already gone). -/
def unlinkErase (s : Scene) (id : Nat) (n : Node) : Scene :=
  let s1 : Scene := { s with nodes := s.nodes.erase id }
  match n.parent with
  | none => s1
  | some p =>
      match s1.nodes.get p with
      | none => s1
      | some pn => { s1 with nodes := s1.nodes.insert p (pn.remove_child id) }

theorem size_unlinkErase_lt {s : Scene} {id : Nat} {n : Node}
    (h : s.nodes.get id = some n) : (unlinkErase s id n).nodes.size < s.nodes.size := by
  unfold unlinkErase
  have h1 : (Table.erase s.nodes id).size < s.nodes.size := Table.size_erase_lt h
  cases hp : n.parent with
  | none => simpa using h1
  | some p =>
      cases hq : (Table.erase s.nodes id).get p with
      | none => simpa [hp, hq] using h1
      | some pn =>
          simp only [hp, hq]
          have := Table.size_insert_present hq (pn.remove_child id)
          simpa [this] using h1

/-- Worklist form of the recursion in `Scene::remove_node`: each id on the
worklist is removed from the map, detached from its parent (when the
parent is still in the map), and its children are processed next,
depth-first — exactly the source's recursive deletion order. -/
def removeAux (s : Scene) (l : List Nat) : Scene :=
  match l with
  | [] => s
  | id :: rest =>
      match h : s.nodes.get id with
      | none => removeAux s rest
      | some n => removeAux (unlinkErase s id n) (n.children ++ rest)
termination_by (s.nodes.size, l.length)
decreasing_by
  · exact Prod.Lex.right _ (Nat.lt_succ_self _)
  · exact Prod.Lex.left _ _ (size_unlinkErase_lt h)

/-- `Scene::remove_node`. -/
def remove_node (s : Scene) (id : Nat) : Scene := removeAux s [id]

/-- The recursion of `Scene::traverse` with explicit fuel (the source
recurses through `children`; on any scene satisfying the structural
invariants the depth is bounded by the number of nodes, so a fuel of
`s.nodes.size` reproduces the source's traversal exactly). -/
def traverseAux (s : Scene) : Nat → Nat → List Node
  | 0, _ => []
  | fuel + 1, id =>
      match s.nodes.get id with
      | none => []
      | some n => n :: n.children.flatMap (fun c => traverseAux s fuel c)

/-- `Scene::traverse`, as the pre-order list of visited nodes: the visitor
callback is invoked on exactly this list, in this order. -/
def traverseList (s : Scene) : List Node := traverseAux s s.nodes.size s.root

end Scene

/-! ## `Renderer` (`ardent-render/src/renderer.rs`) -/

/-- A single vertex (`geometry.rs`); its `[f32; 2]` position is embedded as
a pair of `Int`s (the values are only ever stored and compared). -/
structure Vertex where
  position : Int × Int
deriving DecidableEq

/-- `CachedMesh`: the per-node vertex buffer kept in the render cache; the
GPU buffer is embedded as the vertex list uploaded into it. -/
structure CachedMesh where
  vertex_buffer : List Vertex
deriving DecidableEq

/-- The external tessellation delegate (spec §6): for a shape it reports a
success flag (the `Result` of `tessellate_path`, which the code discards
with `let _ =`) and the vertices it wrote into the output geometry. -/
def Delegate : Type := Shape → Bool × List Vertex

namespace Renderer

/-- `Renderer::tessellate_shape`: dispatches on the shape variant and runs
the delegate, ignoring its success flag — only the vertices written into
`geometry` are returned. -/
def tessellate_shape (d : Delegate) (shape : Shape) : List Vertex :=
  match shape with
  | Shape.rect _ => (d shape).2

/-- The body of the traversal closure in `Renderer::draw_scene`, applied to
one visited node: for a node carrying a shape, refresh the cache entry when
the node is dirty or uncached, then push the id onto the draw list. -/
def drawStep (d : Delegate) (acc : Table CachedMesh × List Nat) (n : Node) :
    Table CachedMesh × List Nat :=
  match n.shape with
  | none => acc
  | some shape =>
      let cache := acc.1
      let cache' :=
        if n.is_dirty || (cache.get n.id).isNone then
          cache.insert n.id ⟨tessellate_shape d shape⟩
        else cache
      (cache', acc.2 ++ [n.id])

/-- `Renderer::draw_scene`: traverse the scene read-only, refresh dirty or
missing cache entries, and build the ordered draw list.  Returns the
renderer's cache after the pass together with the draw list. -/
def draw_scene (d : Delegate) (s : Scene) (cache : Table CachedMesh) :
    Table CachedMesh × List Nat :=
  s.traverseList.foldl (drawStep d) (cache, [])

/-- The draw submissions of `draw_scene`'s second loop: one draw per
draw-list entry that has a cache entry, in list order. -/
def submissions (cache : Table CachedMesh) (drawList : List Nat) : List CachedMesh :=
  drawList.filterMap (fun id => cache.get id)

/-- `Renderer::render` on the scene side: the scene is taken by immutable
borrow (`scene: &Scene`), so the render pass can only update the
renderer-owned cache; the scene value after the call is the scene value
before it.  The triple is (scene after the pass, cache after the pass,
draw list). -/
def renderPass (d : Delegate) (s : Scene) (cache : Table CachedMesh) :
    Scene × Table CachedMesh × List Nat :=
  (s, draw_scene d s cache)

end Renderer

/-! ## Attach/detach operation sequences (spec §8, claim C6)

`Op` is one host-level structural mutation: attaching a freshly created
element (`Node::new()` with the next id from the global atomic allocator)
under a chosen parent, or detaching a subtree.  The state carries the
allocator's next id; `Node::new()` bumps the allocator even when the
subsequent `add_node` panics, and a panicking attach leaves the scene as
it was. -/

inductive Op where
  | attach (parent : Nat)
  | detach (id : Nat)
deriving DecidableEq

/-- Scene together with the allocator's next fresh id. -/
structure St where
  scene : Scene
  next : Nat
deriving DecidableEq

/-- Apply one operation. -/
def applyOp (σ : St) : Op → St
  | Op.attach parent =>
      match σ.scene.add_node parent (Node.new σ.next) with
      | AttachOutcome.ok s' => ⟨s', σ.next + 1⟩
      | AttachOutcome.missingParent _ => ⟨σ.scene, σ.next + 1⟩
      | AttachOutcome.panicked => ⟨σ.scene, σ.next + 1⟩
  | Op.detach id => ⟨σ.scene.remove_node id, σ.next⟩

def applyOps (σ : St) (ops : List Op) : St := ops.foldl applyOp σ

/-- A freshly created scene (`Scene::new()`), with `k` the id the global
allocator hands to the root node (the counter starts at 1). -/
def initSt (k : Nat) : St := ⟨Scene.new k, k + 1⟩

/-! ## Structural theory: the child relation and the scene invariants -/

/-- `childRel s p c`: node `p` is in the scene and lists `c` among its
children. -/
def childRel (s : Scene) (p c : Nat) : Prop :=
  ∃ np, s.nodes.get p = some np ∧ c ∈ np.children

/-- `Desc s a b`: `b` is `a` itself or a descendant of `a` through the
children lists. -/
def Desc (s : Scene) (a b : Nat) : Prop :=
  Relation.ReflTransGen (childRel s) a b

/-- The scene invariants of spec §3 in the form the preservation proofs
use.  `rankEx` (a rank strictly increasing from parent to child) is the
standard witness form of "the parent/children relation has no cycles" on
a finite map; `rootless` records that once the root has been detached the
map is empty (detaching the root removes every node). -/
structure Inv (s : Scene) : Prop where
  nodupKeys : s.nodes.keys.Nodup
  childrenBack : ∀ p np c, s.nodes.get p = some np → c ∈ np.children →
    ∃ m, s.nodes.get c = some m ∧ m.parent = some p
  childrenNodup : ∀ p np, s.nodes.get p = some np → np.children.Nodup
  parentUp : ∀ a n, s.nodes.get a = some n → a ≠ s.root →
    ∃ p np, n.parent = some p ∧ s.nodes.get p = some np ∧ a ∈ np.children
  rootParent : ∀ n, s.nodes.get s.root = some n → n.parent = none
  idSelf : ∀ a n, s.nodes.get a = some n → n.id = a
  rankEx : ∃ rank : Nat → Nat, ∀ p c, childRel s p c → rank p < rank c
  rootless : s.nodes.get s.root = none → s.nodes.entries = []

/-- The hereditary fragment of `Inv`: the parts that keep holding at every
intermediate state of a subtree removal (where parent links may dangle
but parent fields, ids and the no-cycle rank are untouched and children
lists only shrink). -/
structure Wf (s : Scene) : Prop where
  nodupKeys : s.nodes.keys.Nodup
  back : ∀ p np c m, s.nodes.get p = some np → c ∈ np.children →
    s.nodes.get c = some m → m.parent = some p
  childrenNodup : ∀ p np, s.nodes.get p = some np → np.children.Nodup
  idSelf : ∀ a n, s.nodes.get a = some n → n.id = a
  rankEx : ∃ rank : Nat → Nat, ∀ p c, childRel s p c → rank p < rank c

theorem Wf.of_inv {s : Scene} (h : Inv s) : Wf s :=
  ⟨h.nodupKeys,
   fun p np c m hp hc hm => by
     obtain ⟨m', hm', hpar⟩ := h.childrenBack p np c hp hc
     rw [hm] at hm'
     cases hm'
     exact hpar,
   h.childrenNodup, h.idSelf, h.rankEx⟩

/-- `s'` is a sub-scene of `s`: same root, and every surviving node is the
original node with possibly fewer children (id, parent and the remaining
children's order untouched). -/
def SceneLe (s' s : Scene) : Prop :=
  s'.root = s.root ∧
  ∀ b n', s'.nodes.get b = some n' →
    ∃ n, s.nodes.get b = some n ∧ n'.id = n.id ∧ n'.parent = n.parent ∧
      n'.children.Sublist n.children

theorem SceneLe.refl (s : Scene) : SceneLe s s :=
  ⟨rfl, fun _ n' h => ⟨n', h, rfl, rfl, List.Sublist.refl _⟩⟩

theorem SceneLe.trans {s₁ s₂ s₃ : Scene} (h12 : SceneLe s₁ s₂) (h23 : SceneLe s₂ s₃) :
    SceneLe s₁ s₃ := by
  refine ⟨h12.1.trans h23.1, fun b n' h => ?_⟩
  obtain ⟨n₂, h₂, hid₂, hp₂, hc₂⟩ := h12.2 b n' h
  obtain ⟨n₃, h₃, hid₃, hp₃, hc₃⟩ := h23.2 b n₂ h₂
  exact ⟨n₃, h₃, hid₂.trans hid₃, hp₂.trans hp₃, hc₂.trans hc₃⟩

theorem childRel_mono {s' s : Scene} (h : SceneLe s' s) {p c : Nat}
    (hr : childRel s' p c) : childRel s p c := by
  obtain ⟨np, hget, hc⟩ := hr
  obtain ⟨n, hn, _, _, hsub⟩ := h.2 p np hget
  exact ⟨n, hn, hsub.subset hc⟩

theorem desc_mono {s' s : Scene} (h : SceneLe s' s) {a b : Nat}
    (hd : Desc s' a b) : Desc s a b :=
  Relation.ReflTransGen.mono (fun _ _ => childRel_mono h) hd

theorem Wf.of_le {s' s : Scene} (hle : SceneLe s' s) (hnd : s'.nodes.keys.Nodup)
    (h : Wf s) : Wf s' := by
  refine ⟨hnd, ?_, ?_, ?_, ?_⟩
  · intro p np c m hp hc hm
    obtain ⟨n, hn, _, _, hsub⟩ := hle.2 p np hp
    obtain ⟨nm, hnm, _, hpar, _⟩ := hle.2 c m hm
    rw [hpar]
    exact h.back p n c nm hn (hsub.subset hc) hnm
  · intro p np hp
    obtain ⟨n, hn, _, _, hsub⟩ := hle.2 p np hp
    exact hsub.nodup (h.childrenNodup p n hn)
  · intro a n hn
    obtain ⟨m, hm, hid, _, _⟩ := hle.2 a n hn
    rw [hid]
    exact h.idSelf a m hm
  · obtain ⟨rank, hrank⟩ := h.rankEx
    exact ⟨rank, fun p c hr => hrank p c (childRel_mono hle hr)⟩

/-- No node is its own strict descendant (from the rank witness). -/
theorem no_cycle {s : Scene} (h : Wf s) (a : Nat) :
    ¬ Relation.TransGen (childRel s) a a := by
  obtain ⟨rank, hrank⟩ := h.rankEx
  intro hcyc
  have key : ∀ x y, Relation.TransGen (childRel s) x y → rank x < rank y := by
    intro x y hxy
    induction hxy with
    | single h1 => exact hrank _ _ h1
    | tail _ h1 ih => exact ih.trans (hrank _ _ h1)
  exact absurd (key a a hcyc) (lt_irrefl _)

theorem desc_rank_le {s : Scene} (h : Wf s) {a b : Nat} (hd : Desc s a b) :
    a = b ∨ Relation.TransGen (childRel s) a b := by
  induction hd with
  | refl => exact Or.inl rfl
  | tail _ h1 ih =>
      rcases ih with rfl | htg
      · exact Or.inr (Relation.TransGen.single h1)
      · exact Or.inr (htg.tail h1)

/-- Descendants of a child are not the parent (would close a cycle). -/
theorem not_desc_child_self {s : Scene} (h : Wf s) {a c : Nat}
    (hc : childRel s a c) (hd : Desc s c a) : False := by
  rcases desc_rank_le h hd with heq | htg
  · subst heq
    exact no_cycle h _ (Relation.TransGen.single hc)
  · exact no_cycle h _ (Relation.TransGen.head hc htg)

/-! ### A decidable invariant checker for concrete scenes

Concrete witness scenes satisfy the invariants by computation: the checker
scans every entry, and the numeric order of ids (children always have
larger ids than their parents, which holds for every scene built through
the allocator) supplies the rank witness. -/

/-- Per-entry invariant check; `rank` is witnessed by the id itself. -/
def checkEntry (s : Scene) (p : Nat) (np : Node) : Bool :=
  (np.id == p) &&
  np.children.all (fun c =>
    (p < c) &&
    match s.nodes.get c with
    | some m => m.parent == some p
    | none => false) &&
  (decide np.children.Nodup) &&
  (if p == s.root then np.parent == none
   else match np.parent with
        | some q =>
            (match s.nodes.get q with
             | some nq => nq.children.contains p
             | none => false)
        | none => false)

/-- Decidable scene-invariant check used to certify concrete scenes. -/
def checkInv (s : Scene) : Bool :=
  (decide s.nodes.keys.Nodup) &&
  s.nodes.entries.all (fun e => checkEntry s e.1 e.2) &&
  (match s.nodes.get s.root with
   | some _ => true
   | none => s.nodes.entries.isEmpty)

theorem checkEntry_of_get {s : Scene} {p : Nat} {np : Node}
    (hall : s.nodes.entries.all (fun e => checkEntry s e.1 e.2) = true)
    (h : s.nodes.get p = some np) : checkEntry s p np = true := by
  have hmem := Table.get_eq_some_mem h
  have := List.all_eq_true.1 hall (p, np) hmem
  simpa using this

theorem inv_of_checkInv {s : Scene} (h : checkInv s = true) : Inv s := by
  unfold checkInv at h
  simp only [Bool.and_eq_true] at h
  obtain ⟨⟨hnodup, hall⟩, hroot⟩ := h
  have hentry := fun {p np} (hg : s.nodes.get p = some np) => checkEntry_of_get hall hg
  have hparts : ∀ {p np}, s.nodes.get p = some np →
      (np.id = p ∧
       (∀ c ∈ np.children, p < c ∧ ∃ m, s.nodes.get c = some m ∧ m.parent = some p) ∧
       np.children.Nodup ∧
       (p = s.root → np.parent = none) ∧
       (p ≠ s.root → ∃ q nq, np.parent = some q ∧ s.nodes.get q = some nq ∧
         p ∈ nq.children)) := by
    intro p np hg
    have hc := hentry hg
    unfold checkEntry at hc
    simp only [Bool.and_eq_true] at hc
    obtain ⟨⟨⟨hid, hkids⟩, hnd⟩, hpar⟩ := hc
    refine ⟨by simpa using hid, ?_, by simpa using hnd, ?_, ?_⟩
    · intro c hcmem
      have := List.all_eq_true.1 hkids c hcmem
      simp only [Bool.and_eq_true] at this
      refine ⟨by simpa using this.1, ?_⟩
      rcases hgc : s.nodes.get c with _ | m
      · rw [hgc] at this
        simp at this
      · rw [hgc] at this
        refine ⟨m, rfl, ?_⟩
        simpa using this.2
    · intro hpr
      have : (p == s.root) = true := by simpa using hpr
      rw [if_pos this] at hpar
      simpa using hpar
    · intro hpr
      have : (p == s.root) = false := by simpa using hpr
      rw [this] at hpar
      simp only [Bool.false_eq_true, if_false] at hpar
      rcases hq : np.parent with _ | q
      · rw [hq] at hpar
        simp at hpar
      · rw [hq] at hpar
        simp only at hpar
        rcases hgq : s.nodes.get q with _ | nq
        · rw [hgq] at hpar
          simp at hpar
        · rw [hgq] at hpar
          exact ⟨q, nq, rfl, hgq, by simpa using hpar⟩
  refine ⟨by simpa using hnodup, ?_, ?_, ?_, ?_, ?_, ?_, ?_⟩
  · intro p np c hg hc
    exact ((hparts hg).2.1 c hc).2
  · intro p np hg
    exact (hparts hg).2.2.1
  · intro a n hg ha
    obtain ⟨q, nq, h1, h2, h3⟩ := (hparts hg).2.2.2.2 ha
    exact ⟨q, nq, h1, h2, h3⟩
  · intro n hg
    exact (hparts hg).2.2.2.1 rfl
  · intro a n hg
    exact (hparts hg).1
  · refine ⟨id, fun p c hr => ?_⟩
    obtain ⟨np, hg, hc⟩ := hr
    exact ((hparts hg).2.1 c hc).1
  · intro hg
    rw [hg] at hroot
    simpa using hroot

/-! ## Subtree removal: `Scene::remove_node` -/

namespace Scene

theorem removeAux_nil (s : Scene) : removeAux s [] = s := by
  rw [removeAux]

theorem removeAux_cons_none {s : Scene} {id : Nat} {rest : List Nat}
    (h : s.nodes.get id = none) : removeAux s (id :: rest) = removeAux s rest := by
  rw [removeAux]
  split
  · rfl
  · rename_i n heq
    rw [h] at heq
    cases heq

theorem removeAux_cons_some {s : Scene} {id : Nat} {rest : List Nat} {n : Node}
    (h : s.nodes.get id = some n) :
    removeAux s (id :: rest) = removeAux (unlinkErase s id n) (n.children ++ rest) := by
  rw [removeAux]
  split
  · rename_i heq
    rw [h] at heq
    cases heq
  · rename_i n' heq
    rw [h] at heq
    injection heq with hh
    subst hh
    rfl

theorem removeAux_append (s : Scene) (l₁ l₂ : List Nat) :
    removeAux s (l₁ ++ l₂) = removeAux (removeAux s l₁) l₂ := by
  induction s, l₁ using removeAux.induct with
  | case1 s => rw [removeAux_nil]; rfl
  | case2 s id rest h ih => rw [List.cons_append, removeAux_cons_none h,
      removeAux_cons_none h, ih]
  | case3 s id rest n h ih =>
      rw [List.cons_append, removeAux_cons_some h, removeAux_cons_some h,
        ← List.append_assoc]
      exact ih

theorem removeAux_eq_foldl (s₀ : Scene) (cs : List Nat) :
    removeAux s₀ cs = cs.foldl (fun acc c => acc.remove_node c) s₀ := by
  induction cs generalizing s₀ with
  | nil => rw [removeAux_nil]; rfl
  | cons c cs ih =>
      have h1 : c :: cs = [c] ++ cs := rfl
      rw [h1, removeAux_append]
      exact ih _

/-- `Scene::remove_node` satisfies its source equation: take the node out of
the map, unlink it from its parent, then recursively remove each child's
subtree left to right. -/
theorem remove_node_eq (s : Scene) (id : Nat) :
    s.remove_node id =
      match s.nodes.get id with
      | none => s
      | some n => n.children.foldl (fun acc c => acc.remove_node c) (unlinkErase s id n) := by
  unfold remove_node
  cases h : s.nodes.get id with
  | none => rw [removeAux_cons_none h, removeAux_nil]
  | some n =>
      rw [removeAux_cons_some h, List.append_nil, removeAux_eq_foldl]
      rfl

/-- Absent keys stay absent through `removeAux` (nothing is ever inserted
under a key that is not already in the map). -/
theorem get_removeAux_none {s : Scene} {l : List Nat} {a : Nat}
    (h : s.nodes.get a = none) : (removeAux s l).nodes.get a = none := by
  induction s, l using removeAux.induct with
  | case1 s => rwa [removeAux_nil]
  | case2 s id rest hid ih => rw [removeAux_cons_none hid]; exact ih h
  | case3 s id rest n hid ih =>
      rw [removeAux_cons_some hid]
      apply ih
      unfold unlinkErase
      have ha : a ≠ id := fun he => by rw [he, hid] at h; cases h
      cases hp : n.parent with
      | none => simpa using (Table.get_erase_ne s.nodes id a ha).trans h
      | some p =>
          simp only
          cases hq : (Table.erase s.nodes id).get p with
          | none => simpa using (Table.get_erase_ne s.nodes id a ha).trans h
          | some pn =>
              simp only
              have hap : a ≠ p := by
                intro he
                rw [he] at h
                rw [Table.get_erase_ne s.nodes id p (fun hpe => by
                  rw [hpe] at hq
                  rw [Table.get_erase_self] at hq
                  cases hq), h] at hq
                cases hq
              show (((Table.erase s.nodes id).insert p (pn.remove_child id)).get a) = none
              rw [Table.get_insert_ne _ p a _ hap]
              exact (Table.get_erase_ne s.nodes id a ha).trans h

theorem nodup_unlinkErase {s : Scene} (h : s.nodes.keys.Nodup) (id : Nat) (n : Node) :
    (unlinkErase s id n).nodes.keys.Nodup := by
  unfold unlinkErase
  have h1 := Table.nodup_keys_erase h id
  cases n.parent with
  | none => exact h1
  | some p =>
      simp only
      cases (Table.erase s.nodes id).get p with
      | none => exact h1
      | some pn => exact Table.nodup_keys_insert h1 p _

theorem nodup_removeAux {s : Scene} (h : s.nodes.keys.Nodup) (l : List Nat) :
    (removeAux s l).nodes.keys.Nodup := by
  induction s, l using removeAux.induct with
  | case1 s => rwa [removeAux_nil]
  | case2 s id rest hid ih => rw [removeAux_cons_none hid]; exact ih h
  | case3 s id rest n hid ih =>
      rw [removeAux_cons_some hid]
      exact ih (nodup_unlinkErase h id n)

theorem le_unlinkErase (s : Scene) (id : Nat) (n : Node) :
    SceneLe (unlinkErase s id n) s := by
  unfold unlinkErase
  have hbase : SceneLe { s with nodes := s.nodes.erase id } s := by
    refine ⟨rfl, fun b n' hb => ?_⟩
    have hb' : s.nodes.get b = some n' := by
      by_cases hbi : b = id
      · rw [hbi] at hb
        change (s.nodes.erase id).get id = some n' at hb
        rw [Table.get_erase_self] at hb
        cases hb
      · change (s.nodes.erase id).get b = some n' at hb
        rwa [Table.get_erase_ne s.nodes id b hbi] at hb
    exact ⟨n', hb', rfl, rfl, List.Sublist.refl _⟩
  cases hp : n.parent with
  | none => exact hbase
  | some p =>
      simp only
      cases hq : (Table.erase s.nodes id).get p with
      | none => exact hbase
      | some pn =>
          simp only
          refine SceneLe.trans ?_ hbase
          refine ⟨rfl, fun b n' hb => ?_⟩
          by_cases hbp : b = p
          · subst hbp
            change ((Table.erase s.nodes id).insert b (pn.remove_child id)).get b = some n' at hb
            rw [Table.get_insert_self] at hb
            cases hb
            exact ⟨pn, hq, rfl, rfl, List.filter_sublist _⟩
          · change ((Table.erase s.nodes id).insert p (pn.remove_child id)).get b = some n' at hb
            rw [Table.get_insert_ne _ p b _ hbp] at hb
            exact ⟨n', hb, rfl, rfl, List.Sublist.refl _⟩

theorem le_removeAux (s : Scene) (l : List Nat) : SceneLe (removeAux s l) s := by
  induction s, l using removeAux.induct with
  | case1 s => rw [removeAux_nil]; exact SceneLe.refl s
  | case2 s id rest hid ih => rwa [removeAux_cons_none hid]
  | case3 s id rest n hid ih =>
      rw [removeAux_cons_some hid]
      exact SceneLe.trans ih (le_unlinkErase s id n)

theorem wf_unlinkErase {s : Scene} (h : Wf s) (id : Nat) (n : Node) :
    Wf (unlinkErase s id n) :=
  Wf.of_le (le_unlinkErase s id n) (nodup_unlinkErase h.nodupKeys id n) h

/-- Lookups in `unlinkErase s id n`: the erased id reads `none`; the parent
(when present after the erase) reads its node with `id` filtered out of the
children; every other key reads as in `s`. -/
theorem get_unlinkErase (s : Scene) (id : Nat) (n : Node) (b : Nat) :
    (unlinkErase s id n).nodes.get b =
      if b = id then none
      else
        match n.parent with
        | none => s.nodes.get b
        | some p =>
            if b = p then ((s.nodes.erase id).get p).map (fun pn => pn.remove_child id)
            else s.nodes.get b := by
  unfold unlinkErase
  by_cases hbi : b = id
  · subst hbi
    simp only [if_pos rfl]
    cases hp : n.parent with
    | none => exact Table.get_erase_self s.nodes b
    | some p =>
        simp only
        cases hq : (Table.erase s.nodes b).get p with
        | none => exact Table.get_erase_self s.nodes b
        | some pn =>
            simp only
            by_cases hbp : b = p
            · subst hbp
              rw [Table.get_erase_self] at hq
              cases hq
            · show ((Table.erase s.nodes b).insert p (pn.remove_child b)).get b = none
              rw [Table.get_insert_ne _ p b _ hbp]
              exact Table.get_erase_self s.nodes b
  · rw [if_neg hbi]
    cases hp : n.parent with
    | none => exact Table.get_erase_ne s.nodes id b hbi
    | some p =>
        simp only
        by_cases hbp : b = p
        · subst hbp
          cases hq : (Table.erase s.nodes id).get b with
          | none =>
              simp only [if_pos rfl, hq, Option.map_none]
              rw [Table.get_erase_ne s.nodes id b hbi] at hq
              simpa using hq
          | some pn =>
              simp only [if_pos rfl, hq, Option.map_some']
              show ((Table.erase s.nodes id).insert b (pn.remove_child id)).get b =
                some (pn.remove_child id)
              exact Table.get_insert_self _ b _
        · rw [if_neg hbp]
          cases hq : (Table.erase s.nodes id).get p with
          | none => exact Table.get_erase_ne s.nodes id b hbi
          | some pn =>
              simp only
              show ((Table.erase s.nodes id).insert p (pn.remove_child id)).get b =
                s.nodes.get b
              rw [Table.get_insert_ne _ p b _ hbp]
              exact Table.get_erase_ne s.nodes id b hbi

end Scene

/-! ### Splitting reachability chains at a removed node -/

/-- Edges of `r` that avoid `bad` at both endpoints. -/
def AvoidStep (r : Nat → Nat → Prop) (bad : Nat) (x y : Nat) : Prop :=
  r x y ∧ x ≠ bad ∧ y ≠ bad

theorem avoid_end_bad {r : Nat → Nat → Prop} {bad x y : Nat}
    (h : Relation.ReflTransGen (AvoidStep r bad) x y) (hy : y = bad) : x = y := by
  induction h with
  | refl => rfl
  | tail _ e _ => exact absurd hy e.2.2

theorem avoid_start_bad {r : Nat → Nat → Prop} {bad y : Nat}
    (h : Relation.ReflTransGen (AvoidStep r bad) bad y) : y = bad := by
  rcases Relation.ReflTransGen.cases_head h with h1 | ⟨c, hc, _⟩
  · exact h1.symm
  · exact absurd rfl hc.2.1

/-- Any `r`-chain either avoids `bad` entirely, ends at `bad`, or has a
final `bad`-free suffix that starts with an edge out of `bad`. -/
theorem rtg_avoid {r : Nat → Nat → Prop} {bad a b : Nat}
    (h : Relation.ReflTransGen r a b) :
    Relation.ReflTransGen (AvoidStep r bad) a b ∨ b = bad ∨
      ∃ c, c ≠ bad ∧ r bad c ∧ Relation.ReflTransGen (AvoidStep r bad) c b := by
  induction h with
  | refl => exact Or.inl Relation.ReflTransGen.refl
  | tail h' e ih =>
      rename_i m b'
      by_cases hb : b' = bad
      · exact Or.inr (Or.inl hb)
      · rcases ih with hclean | hm | ⟨c, hc, hbc, hcm⟩
        · by_cases hm : m = bad
          · have := avoid_end_bad hclean hm
            refine Or.inr (Or.inr ⟨b', hb, ?_, Relation.ReflTransGen.refl⟩)
            rw [← hm]
            exact e
          · exact Or.inl (hclean.tail ⟨e, hm, hb⟩)
        · refine Or.inr (Or.inr ⟨b', hb, ?_, Relation.ReflTransGen.refl⟩)
          rw [← hm]
          exact e
        · by_cases hm : m = bad
          · exact absurd (avoid_end_bad hcm hm ▸ hm) hc
          · exact Or.inr (Or.inr ⟨c, hc, hbc, hcm.tail ⟨e, hm, hb⟩⟩)

namespace Scene

/-- An edge avoiding the removed id survives `unlinkErase` (the only edges
destroyed are those out of `id` and the one into `id` from its parent). -/
theorem childRel_unlinkErase_of_ne {s : Scene} {id : Nat} {n : Node} {x y : Nat}
    (hx : x ≠ id) (hy : y ≠ id) (h : childRel s x y) :
    childRel (unlinkErase s id n) x y := by
  obtain ⟨nx, hgx, hmem⟩ := h
  rw [childRel]
  rw [get_unlinkErase s id n x, if_neg hx]
  cases hp : n.parent with
  | none => exact ⟨nx, hgx, hmem⟩
  | some p =>
      simp only
      by_cases hxp : x = p
      · rw [if_pos hxp]
        subst hxp
        rw [Table.get_erase_ne s.nodes id x hx, hgx]
        refine ⟨nx.remove_child id, rfl, ?_⟩
        simp [Node.remove_child, List.mem_filter, hmem, hy]
      · rw [if_neg hxp]
        exact ⟨nx, hgx, hmem⟩

theorem desc_unlinkErase {s : Scene} {id : Nat} {n : Node} {x y : Nat}
    (h : Relation.ReflTransGen (AvoidStep (childRel s) id) x y) :
    Desc (unlinkErase s id n) x y :=
  Relation.ReflTransGen.mono
    (fun _ _ e => childRel_unlinkErase_of_ne e.2.1 e.2.2 e.1) h

/-- Everything reachable from any worklist entry is gone after `removeAux`. -/
theorem removeAux_removes :
    ∀ (s : Scene) (l : List Nat), Wf s → ∀ a ∈ l, ∀ b, Desc s a b →
      (removeAux s l).nodes.get b = none := by
  intro s l
  induction s, l using removeAux.induct with
  | case1 s =>
      intro _ a ha
      cases ha
  | case2 s id rest hid ih =>
      intro hw a ha b hd
      rw [removeAux_cons_none hid]
      rcases List.mem_cons.1 ha with rfl | ha'
      · rcases Relation.ReflTransGen.cases_head hd with h1 | ⟨c, hc, _⟩
        · rw [← h1]
          exact get_removeAux_none hid
        · obtain ⟨np, hnp, _⟩ := hc
          rw [hid] at hnp
          cases hnp
      · exact ih hw a ha' b hd
  | case3 s id rest n hid ih =>
      intro hw a ha b hd
      rw [removeAux_cons_some hid]
      have hw2 : Wf (unlinkErase s id n) := wf_unlinkErase hw id n
      have absent : b = id → (removeAux (unlinkErase s id n) (n.children ++ rest)).nodes.get b = none := by
        intro hb
        apply get_removeAux_none
        rw [get_unlinkErase, if_pos hb]
      rcases List.mem_cons.1 ha with rfl | ha'
      · rcases @rtg_avoid (childRel s) a a b hd with hclean | hb | ⟨c, hc, hbc, hcb⟩
        · exact absent (avoid_start_bad hclean)
        · exact absent hb
        · obtain ⟨np, hnp, hcmem⟩ := hbc
          rw [hid] at hnp
          cases hnp
          exact ih hw2 c (List.mem_append_left _ hcmem) b (desc_unlinkErase hcb)
      · rcases @rtg_avoid (childRel s) id a b hd with hclean | hb | ⟨c, hc, hbc, hcb⟩
        · exact ih hw2 a (List.mem_append_right _ ha') b (desc_unlinkErase hclean)
        · exact absent hb
        · obtain ⟨np, hnp, hcmem⟩ := hbc
          rw [hid] at hnp
          cases hnp
          exact ih hw2 c (List.mem_append_left _ hcmem) b (desc_unlinkErase hcb)

/-- Conversely, only nodes reachable from the worklist are removed. -/
theorem removeAux_lost :
    ∀ (s : Scene) (l : List Nat), ∀ b nb, s.nodes.get b = some nb →
      (removeAux s l).nodes.get b = none → ∃ a ∈ l, Desc s a b := by
  intro s l
  induction s, l using removeAux.induct with
  | case1 s =>
      intro b nb hb hnone
      rw [removeAux_nil, hb] at hnone
      cases hnone
  | case2 s id rest hid ih =>
      intro b nb hb hnone
      rw [removeAux_cons_none hid] at hnone
      obtain ⟨a, ha, hd⟩ := ih b nb hb hnone
      exact ⟨a, List.mem_cons_of_mem _ ha, hd⟩
  | case3 s id rest n hid ih =>
      intro b nb hb hnone
      by_cases hbi : b = id
      · exact ⟨id, List.mem_cons_self _ _, by rw [hbi]; exact Relation.ReflTransGen.refl⟩
      · rw [removeAux_cons_some hid] at hnone
        have hb2 : ∃ m, (unlinkErase s id n).nodes.get b = some m := by
          rw [get_unlinkErase, if_neg hbi]
          cases hp : n.parent with
          | none => exact ⟨nb, hb⟩
          | some p =>
              simp only
              by_cases hbp : b = p
              · rw [if_pos hbp, ← hbp, Table.get_erase_ne s.nodes id b hbi, hb]
                exact ⟨nb.remove_child id, rfl⟩
              · rw [if_neg hbp]
                exact ⟨nb, hb⟩
        obtain ⟨m, hm⟩ := hb2
        obtain ⟨a, ha, hd⟩ := ih b m hm hnone
        have hd' : Desc s a b := desc_mono (le_unlinkErase s id n) hd
        rcases List.mem_append.1 ha with hac | har
        · exact ⟨id, List.mem_cons_self _ _,
            Relation.ReflTransGen.head ⟨n, hid, hac⟩ hd'⟩
        · exact ⟨a, List.mem_cons_of_mem _ har, hd'⟩

/-- When every worklist entry's parent is already gone (which holds for all
the recursive calls inside a `remove_node`), the removal touches no other
node at all. -/
theorem removeAux_exact :
    ∀ (s : Scene) (l : List Nat), Wf s →
      (∀ x ∈ l, ∀ nx, s.nodes.get x = some nx → ∀ p, nx.parent = some p →
        s.nodes.get p = none) →
      ∀ b, (¬ ∃ a ∈ l, Desc s a b) →
        (removeAux s l).nodes.get b = s.nodes.get b := by
  intro s l
  induction s, l using removeAux.induct with
  | case1 s =>
      intro _ _ b _
      rw [removeAux_nil]
  | case2 s id rest hid ih =>
      intro hw hP b hnr
      rw [removeAux_cons_none hid]
      refine ih hw (fun x hx => hP x (List.mem_cons_of_mem _ hx)) b ?_
      rintro ⟨a, ha, hd⟩
      exact hnr ⟨a, List.mem_cons_of_mem _ ha, hd⟩
  | case3 s id rest n hid ih =>
      intro hw hP b hnr
      rw [removeAux_cons_some hid]
      have hbid : b ≠ id := by
        rintro rfl
        exact hnr ⟨b, List.mem_cons_self _ _, Relation.ReflTransGen.refl⟩
      -- under the precondition the parent is already gone, so `unlinkErase`
      -- degenerates to the plain erase
      have hs2 : unlinkErase s id n = { s with nodes := s.nodes.erase id } := by
        unfold unlinkErase
        cases hp : n.parent with
        | none => rfl
        | some p =>
            simp only
            have hpn : (Table.erase s.nodes id).get p = none := by
              by_cases hpi : p = id
              · rw [hpi]
                exact Table.get_erase_self s.nodes id
              · rw [Table.get_erase_ne s.nodes id p hpi]
                exact hP id (List.mem_cons_self _ _) n hid p hp
            rw [hpn]
      have hle : SceneLe (unlinkErase s id n) s := le_unlinkErase s id n
      have hw1 : Wf (unlinkErase s id n) := wf_unlinkErase hw id n
      have hget1 : ∀ x, (unlinkErase s id n).nodes.get x =
          if x = id then none else s.nodes.get x := by
        intro x
        rw [hs2]
        by_cases hx : x = id
        · rw [if_pos hx, hx]
          exact Table.get_erase_self s.nodes id
        · rw [if_neg hx]
          exact Table.get_erase_ne s.nodes id x hx
      have hres := ih hw1 ?_ b ?_
      · rw [hres, hget1, if_neg hbid]
      · intro x hx nx hgx p hpx
        have hxid : x ≠ id := by
          rintro rfl
          rw [hget1, if_pos rfl] at hgx
          cases hgx
        rw [hget1, if_neg hxid] at hgx
        rcases List.mem_append.1 hx with hxc | hxr
        · have := hw.back id n x nx hid hxc hgx
          rw [this] at hpx
          cases hpx
          rw [hget1, if_pos rfl]
        · have hpnone := hP x (List.mem_cons_of_mem _ hxr) nx hgx p hpx
          rw [hget1]
          by_cases hpi : p = id
          · rw [if_pos hpi]
          · rw [if_neg hpi]
            exact hpnone
      · rintro ⟨a, ha, hd⟩
        have hd' : Desc s a b := desc_mono hle hd
        rcases List.mem_append.1 ha with hac | har
        · exact hnr ⟨id, List.mem_cons_self _ _,
            Relation.ReflTransGen.head ⟨n, hid, hac⟩ hd'⟩
        · exact hnr ⟨a, List.mem_cons_of_mem _ har, hd'⟩

/-- `remove_node` on an id absent from the map does nothing at all. -/
theorem remove_node_absent {s : Scene} {id : Nat} (h : s.nodes.get id = none) :
    s.remove_node id = s := by
  unfold remove_node
  rw [removeAux_cons_none h, removeAux_nil]

theorem get_remove_node_self {s : Scene} {id : Nat} {n : Node}
    (h : s.nodes.get id = some n) : (s.remove_node id).nodes.get id = none := by
  unfold remove_node
  rw [removeAux_cons_some h]
  apply get_removeAux_none
  rw [get_unlinkErase, if_pos rfl]

/-- `remove_node` is idempotent (no invariant needed: the id can never
reappear once erased, since removal only erases and re-inserts parents
that are still present). -/
theorem remove_node_idem (s : Scene) (id : Nat) :
    (s.remove_node id).remove_node id = s.remove_node id := by
  cases h : s.nodes.get id with
  | none => rw [remove_node_absent h, remove_node_absent h]
  | some n => exact remove_node_absent (get_remove_node_self h)

/-- `remove_node` deletes the node and every descendant. -/
theorem remove_node_removes {s : Scene} (hw : Wf s) {id b : Nat}
    (hd : Desc s id b) : (s.remove_node id).nodes.get b = none :=
  removeAux_removes s [id] hw id (List.mem_singleton_self id) b hd

theorem le_remove_node (s : Scene) (id : Nat) : SceneLe (s.remove_node id) s :=
  le_removeAux s [id]

theorem nodup_remove_node {s : Scene} (h : s.nodes.keys.Nodup) (id : Nat) :
    (s.remove_node id).nodes.keys.Nodup := nodup_removeAux h [id]

theorem wf_remove_node {s : Scene} (hw : Wf s) (id : Nat) : Wf (s.remove_node id) :=
  Wf.of_le (le_remove_node s id) (nodup_remove_node hw.nodupKeys id) hw

/-- What `remove_node` does to every node outside the removed subtree:
nothing, except that the removed node's parent has `id` filtered out of
its children. -/
theorem remove_node_exact {s : Scene} (hInv : Inv s) {id : Nat} {n : Node}
    (hid : s.nodes.get id = some n) (b : Nat) (hnd : ¬ Desc s id b) :
    (s.remove_node id).nodes.get b =
      match n.parent with
      | none => s.nodes.get b
      | some p =>
          if b = p then (s.nodes.get b).map (fun pn => pn.remove_child id)
          else s.nodes.get b := by
  have hw : Wf s := Wf.of_inv hInv
  have hbid : b ≠ id := by
    rintro rfl
    exact hnd Relation.ReflTransGen.refl
  unfold remove_node
  rw [removeAux_cons_some hid, List.append_nil]
  have hw2 : Wf (unlinkErase s id n) := wf_unlinkErase hw id n
  have hle : SceneLe (unlinkErase s id n) s := le_unlinkErase s id n
  have hres := removeAux_exact (unlinkErase s id n) n.children hw2 ?_ b ?_
  · rw [hres, get_unlinkErase, if_neg hbid]
    cases hp : n.parent with
    | none => rfl
    | some p =>
        simp only
        by_cases hbp : b = p
        · subst hbp
          rw [if_pos rfl, if_pos rfl, Table.get_erase_ne s.nodes id b hbid]
        · rw [if_neg hbp, if_neg hbp]
  · intro x hx nx hgx p hpx
    have hxid : x ≠ id := by
      rintro rfl
      rw [get_unlinkErase, if_pos rfl] at hgx
      cases hgx
    obtain ⟨mx, hmx, _, hpar, _⟩ := hle.2 x nx hgx
    have := hw.back id n x mx hid hx hmx
    rw [hpar, this] at hpx
    cases hpx
    rw [get_unlinkErase, if_pos rfl]
  · rintro ⟨a, ha, hd⟩
    have hd' : Desc s a b := desc_mono hle hd
    exact hnd (Relation.ReflTransGen.head ⟨n, hid, ha⟩ hd')

/-- Everything in a scene satisfying the invariants hangs under the root. -/
theorem desc_root {s : Scene} (hInv : Inv s) {b : Nat} {nb : Node}
    (hb : s.nodes.get b = some nb) : Desc s s.root b := by
  obtain ⟨rank, hrank⟩ := hInv.rankEx
  have main : ∀ k, ∀ b nb, s.nodes.get b = some nb → rank b < k → Desc s s.root b := by
    intro k
    induction k with
    | zero => intro b nb _ hk; cases hk
    | succ k ih =>
        intro b nb hb hk
        by_cases hbr : b = s.root
        · rw [hbr]
          exact Relation.ReflTransGen.refl
        · obtain ⟨p, np, _, hp, hmem⟩ := hInv.parentUp b nb hb hbr
          have hrel : childRel s p b := ⟨np, hp, hmem⟩
          have hlt : rank p < rank b := hrank p b hrel
          have : Desc s s.root p := ih p np hp (Nat.lt_of_lt_of_le hlt (Nat.lt_succ_iff.1 hk))
          exact this.tail hrel
  exact main (rank b + 1) b nb hb (Nat.lt_succ_self _)

/-- Non-root descendants decompose through a last edge whose source is the
unique parent. -/
theorem desc_parent_of_ne {s : Scene} (hInv : Inv s) {a b : Nat} (hd : Desc s a b)
    (hne : a ≠ b) {nb : Node} (hb : s.nodes.get b = some nb) {p : Nat}
    (hp : nb.parent = some p) : Desc s a p := by
  rcases desc_rank_le (Wf.of_inv hInv) hd with heq | htg
  · exact absurd heq hne
  · obtain ⟨d, had, hdb⟩ := Relation.TransGen.tail'_iff.1 htg
    obtain ⟨nd, hnd, hmem⟩ := hdb
    obtain ⟨m, hm, hmp⟩ := hInv.childrenBack d nd b hnd hmem
    rw [hb] at hm
    cases hm
    rw [hp] at hmp
    injection hmp with hpd
    rw [hpd]
    exact had

/-- Detaching any subtree preserves the scene invariants. -/
theorem inv_remove_node {s : Scene} (hInv : Inv s) (id : Nat) :
    Inv (s.remove_node id) := by
  cases hid : s.nodes.get id with
  | none => rw [remove_node_absent hid]; exact hInv
  | some n =>
      have hw : Wf s := Wf.of_inv hInv
      have hle : SceneLe (s.remove_node id) s := le_remove_node s id
      have hwf' : Wf (s.remove_node id) := wf_remove_node hw id
      have hrem : ∀ b, Desc s id b → (s.remove_node id).nodes.get b = none :=
        fun b hd => remove_node_removes hw hd
      have hex := remove_node_exact hInv hid
      have hpres : ∀ b m', (s.remove_node id).nodes.get b = some m' → ¬ Desc s id b := by
        intro b m' hbm hd
        rw [hrem b hd] at hbm
        cases hbm
      have hroot' : (s.remove_node id).root = s.root := hle.1
      -- a surviving node keeps its parent and children membership for ids ≠ id
      have hsurv : ∀ b m', (s.remove_node id).nodes.get b = some m' →
          ∃ m, s.nodes.get b = some m ∧ m'.parent = m.parent ∧ m'.id = m.id ∧
            (∀ c, c ∈ m.children → c ≠ id → c ∈ m'.children) ∧
            m'.children.Sublist m.children := by
        intro b m' hbm
        obtain ⟨m, hm, hmid, hmp, hmc⟩ := hle.2 b m' hbm
        refine ⟨m, hm, hmp, hmid, ?_, hmc⟩
        intro c hc hcid
        have hnd : ¬ Desc s id b := hpres b m' hbm
        have := hex b hnd
        cases hp : n.parent with
        | none =>
            rw [hp] at this
            simp only at this
            rw [hm] at this
            rw [this] at hbm
            cases hbm
            exact hc
        | some q =>
            rw [hp] at this
            simp only at this
            by_cases hbq : b = q
            · rw [if_pos hbq, hm] at this
              simp only [Option.map_some'] at this
              rw [this] at hbm
              cases hbm
              simp [Node.remove_child, List.mem_filter, hc, hcid]
            · rw [if_neg hbq, hm] at this
              rw [this] at hbm
              cases hbm
              exact hc
      refine ⟨hwf'.nodupKeys, ?_, hwf'.childrenNodup, ?_, ?_, hwf'.idSelf, hwf'.rankEx, ?_⟩
      · -- childrenBack
        intro p np' c hp' hc
        obtain ⟨np, hnp, _, _, hsub⟩ := hle.2 p np' hp'
        have hcnp : c ∈ np.children := hsub.subset hc
        obtain ⟨m, hm, hmp⟩ := hInv.childrenBack p np c hnp hcnp
        have hndp : ¬ Desc s id p := hpres p np' hp'
        have hcid : c ≠ id := by
          rintro rfl
          rw [hid] at hm
          cases hm
          -- so `n.parent = some p`: the unlink filtered `id` out of p's children
          have := hex p hndp
          rw [hmp] at this
          simp only [if_pos rfl] at this
          rw [hnp] at this
          simp only [Option.map_some'] at this
          rw [this] at hp'
          cases hp'
          have : c ∉ (np.remove_child c).children := by
            simp [Node.remove_child, List.mem_filter]
          exact this hc
        have hndc : ¬ Desc s id c := by
          intro hdc
          have hidc : id ≠ c := by
            rintro rfl
            exact hcid rfl
          have : Desc s id p := desc_parent_of_ne hInv hdc hidc hm hmp
          exact hndp this
        have := hex c hndc
        cases hp : n.parent with
        | none =>
            rw [hp] at this
            simp only at this
            rw [hm] at this
            exact ⟨m, this, hmp⟩
        | some q =>
            rw [hp] at this
            simp only at this
            by_cases hcq : c = q
            · rw [if_pos hcq, hm] at this
              simp only [Option.map_some'] at this
              exact ⟨m.remove_child id, this, hmp⟩
            · rw [if_neg hcq, hm] at this
              exact ⟨m, this, hmp⟩
      · -- parentUp
        intro a n' ha' hanr
        rw [hroot'] at hanr
        obtain ⟨na, hna, hpar, haid, _, _⟩ := hsurv a n' ha'
        obtain ⟨p, np, hnap, hnp, hamem⟩ := hInv.parentUp a na hna hanr
        have hnda : ¬ Desc s id a := hpres a n' ha'
        have hndp : ¬ Desc s id p := by
          intro hdp
          exact hnda (hdp.tail ⟨np, hnp, hamem⟩)
        have haneid : a ≠ id := by
          rintro rfl
          exact hnda Relation.ReflTransGen.refl
        have := hex p hndp
        cases hp : n.parent with
        | none =>
            rw [hp] at this
            simp only at this
            rw [hnp] at this
            exact ⟨p, np, by rw [hpar, hnap], this, hamem⟩
        | some q =>
            rw [hp] at this
            simp only at this
            by_cases hpq : p = q
            · rw [if_pos hpq, hnp] at this
              simp only [Option.map_some'] at this
              refine ⟨p, np.remove_child id, by rw [hpar, hnap], this, ?_⟩
              simp [Node.remove_child, List.mem_filter, hamem, haneid]
            · rw [if_neg hpq, hnp] at this
              exact ⟨p, np, by rw [hpar, hnap], this, hamem⟩
      · -- rootParent
        intro n' hn'
        rw [hroot'] at hn'
        obtain ⟨nr, hnr, hpar, _, _, _⟩ := hsurv s.root n' hn'
        rw [hpar]
        exact hInv.rootParent nr hnr
      · -- rootless: detaching can only empty the map by detaching the root
        intro hnone
        rw [hroot'] at hnone
        have hrootS : ∃ nr, s.nodes.get s.root = some nr := by
          cases hg : s.nodes.get s.root with
          | none =>
              have := hInv.rootless hg
              exfalso
              have : s.nodes.get id = none := by
                unfold Table.get
                rw [this]
                rfl
              rw [hid] at this
              cases this
          | some nr => exact ⟨nr, rfl⟩
        obtain ⟨nr, hnr⟩ := hrootS
        have hdesc : Desc s id s.root := by
          obtain ⟨a, ha, hd⟩ :=
            removeAux_lost s [id] s.root nr hnr hnone
          rcases List.mem_singleton.1 ha with rfl
          exact hd
        have hidroot : id = s.root := by
          rcases desc_rank_le hw hdesc with heq | htg
          · exact heq
          · obtain ⟨d, _, hdb⟩ := Relation.TransGen.tail'_iff.1 htg
            obtain ⟨nd, hnd, hmem⟩ := hdb
            obtain ⟨m, hm, hmp⟩ := hInv.childrenBack d nd s.root hnd hmem
            rw [hnr] at hm
            cases hm
            rw [hInv.rootParent nr hnr] at hmp
            cases hmp
        -- everything hangs under the root = id, so everything is removed
        cases hent : (s.remove_node id).nodes.entries with
        | nil => rfl
        | cons e rest =>
            exfalso
            have hkey : e.1 ∈ (s.remove_node id).nodes.keys := by
              unfold Table.keys
              rw [hent]
              exact List.mem_map.2 ⟨e, List.mem_cons_self _ _, rfl⟩
            obtain ⟨v, hv⟩ := Table.exists_get_of_mem_keys hkey
            obtain ⟨m, hm, _, _, _⟩ := hle.2 e.1 v hv
            have : Desc s id e.1 := by
              rw [hidroot]
              exact desc_root hInv hm
            rw [hrem e.1 this] at hv
            cases hv

/-- `Scene::add_node` panics exactly when the parent is absent. -/
theorem add_node_missing {s : Scene} {p : Nat} (node : Node)
    (h : s.nodes.get p = none) : s.add_node p node = AttachOutcome.panicked := by
  unfold add_node
  rw [h]

theorem children_mem_keys {s : Scene} (hInv : Inv s) {q : Nat} {nq : Node}
    (hq : s.nodes.get q = some nq) {c : Nat} (hc : c ∈ nq.children) :
    c ∈ s.nodes.keys := by
  obtain ⟨m, hm, _⟩ := hInv.childrenBack q nq c hq hc
  exact Table.mem_keys_of_get hm

/-- Attaching a freshly allocated node preserves the invariants (and the
freshness bound advances). -/
theorem inv_add_node {s : Scene} (hInv : Inv s) {c : Nat}
    (hfresh : ∀ k ∈ s.nodes.keys, k < c) {p : Nat} {s' : Scene}
    (h : s.add_node p (Node.new c) = AttachOutcome.ok s') :
    Inv s' ∧ ∀ k ∈ s'.nodes.keys, k < c + 1 := by
  unfold add_node at h
  cases hp : s.nodes.get p with
  | none => rw [hp] at h; cases h
  | some pn =>
      rw [hp] at h
      simp only at h
      injection h with h
      subst h
      simp only [Node.id_set_parent, Node.id_new]
      set newNode : Node := (Node.new c).set_parent p with hnew
      have hpkeys : p ∈ s.nodes.keys := Table.mem_keys_of_get hp
      have hpc : p ≠ c := Nat.ne_of_lt (hfresh p hpkeys)
      have hcnotin : c ∉ s.nodes.keys := fun hmem => absurd (hfresh c hmem) (lt_irrefl c)
      have hgc : s.nodes.get c = none := Table.get_eq_none_of_not_mem_keys hcnotin
      have hget' : ∀ a, ((s.nodes.insert p (pn.add_child c)).insert c newNode).get a =
          if a = c then some newNode
          else if a = p then some (pn.add_child c) else s.nodes.get a := by
        intro a
        by_cases hac : a = c
        · rw [if_pos hac, hac]
          exact Table.get_insert_self _ c newNode
        · rw [if_neg hac, Table.get_insert_ne _ c a newNode hac]
          by_cases hap : a = p
          · rw [if_pos hap, hap]
            exact Table.get_insert_self _ p _
          · rw [if_neg hap]
            exact Table.get_insert_ne _ p a _ hap
      have hkeys' : ((s.nodes.insert p (pn.add_child c)).insert c newNode).keys =
          s.nodes.keys ++ [c] := by
        have h1 : (s.nodes.insert p (pn.add_child c)).keys = s.nodes.keys :=
          Table.keys_insert_present hp _
        have h2 : (s.nodes.insert p (pn.add_child c)).get c = none := by
          rw [Table.get_insert_ne _ p c _ (Ne.symm hpc)]
          exact hgc
        rw [Table.keys_insert_absent h2 newNode, h1]
      have hrootmem : ∃ nr, s.nodes.get s.root = some nr := by
        cases hg : s.nodes.get s.root with
        | none =>
            have hempty := hInv.rootless hg
            have : s.nodes.get p = none := by
              unfold Table.get
              rw [hempty]
              rfl
            rw [hp] at this
            cases this
        | some nr => exact ⟨nr, rfl⟩
      have hrootc : s.root ≠ c := by
        obtain ⟨nr, hnr⟩ := hrootmem
        exact Nat.ne_of_lt (hfresh s.root (Table.mem_keys_of_get hnr))
      constructor
      · refine ⟨?_, ?_, ?_, ?_, ?_, ?_, ?_, ?_⟩
        · show ((s.nodes.insert p (pn.add_child c)).insert c newNode).keys.Nodup
          rw [hkeys']
          simp [List.nodup_append, hInv.nodupKeys, hcnotin]
        · -- childrenBack
          intro q nq' c' hq' hc'
          rw [hget'] at hq'
          by_cases hqc : q = c
          · rw [if_pos hqc] at hq'
            cases hq'
            cases hc'
          · rw [if_neg hqc] at hq'
            have showGoal : ∀ m, s.nodes.get c' = some m → m.parent = some q →
                ∃ m', ((s.nodes.insert p (pn.add_child c)).insert c newNode).get c' =
                  some m' ∧ m'.parent = some q := by
              intro m hm hmp
              have hc'keys : c' ∈ s.nodes.keys := Table.mem_keys_of_get hm
              have hc'c : c' ≠ c := Nat.ne_of_lt (hfresh c' hc'keys)
              rw [hget', if_neg hc'c]
              by_cases hc'p : c' = p
              · rw [if_pos hc'p]
                refine ⟨pn.add_child c, rfl, ?_⟩
                show pn.parent = some q
                rw [hc'p, hp] at hm
                cases hm
                exact hmp
              · rw [if_neg hc'p]
                exact ⟨m, hm, hmp⟩
            by_cases hqp : q = p
            · -- children of the parent grew by the fresh id
              rw [if_pos hqp] at hq'
              cases hq'
              rcases List.mem_append.1 hc' with hold | hnw
              · obtain ⟨m, hm, hmp⟩ := hInv.childrenBack p pn c' hp hold
                rw [← hqp] at hmp
                exact showGoal m hm hmp
              · rcases List.mem_singleton.1 hnw with rfl
                rw [hget', if_pos rfl]
                exact ⟨newNode, rfl, by rw [hqp]; rfl⟩
            · rw [if_neg hqp] at hq'
              obtain ⟨m, hm, hmp⟩ := hInv.childrenBack q nq' c' hq' hc'
              exact showGoal m hm hmp
        · -- childrenNodup
          intro q nq' hq'
          rw [hget'] at hq'
          by_cases hqc : q = c
          · rw [if_pos hqc] at hq'
            cases hq'
            exact List.nodup_nil
          · rw [if_neg hqc] at hq'
            by_cases hqp : q = p
            · rw [if_pos hqp] at hq'
              cases hq'
              have hcnot : c ∉ pn.children := by
                intro hmem
                exact hcnotin (children_mem_keys hInv hp hmem)
              simp [Node.add_child, List.nodup_append, hInv.childrenNodup p pn hp, hcnot]
            · rw [if_neg hqp] at hq'
              exact hInv.childrenNodup q nq' hq'
        · -- parentUp
          intro a n' ha' hanr
          have hroot' : ({ s with nodes := (s.nodes.insert p (pn.add_child c)).insert c newNode } : Scene).root = s.root := rfl
          rw [hroot'] at hanr
          rw [hget'] at ha'
          by_cases hac : a = c
          · rw [if_pos hac] at ha'
            cases ha'
            refine ⟨p, pn.add_child c, rfl, ?_, ?_⟩
            · rw [hget']
              simp [hpc]
            · rw [hac]
              exact List.mem_append_right _ (List.mem_singleton_self c)
          · rw [if_neg hac] at ha'
            have fromOrig : ∀ na, s.nodes.get a = some na → na.parent = n'.parent →
                ∃ q nq', n'.parent = some q ∧
                  ((s.nodes.insert p (pn.add_child c)).insert c newNode).get q = some nq' ∧
                  a ∈ nq'.children := by
              intro na hna hpar
              obtain ⟨q, nq, hnaq, hq, hmem⟩ := hInv.parentUp a na hna hanr
              have hqkeys : q ∈ s.nodes.keys := Table.mem_keys_of_get hq
              have hqc : q ≠ c := Nat.ne_of_lt (hfresh q hqkeys)
              by_cases hqp : q = p
              · refine ⟨q, pn.add_child c, by rw [← hpar, hnaq], ?_, ?_⟩
                · rw [hget', if_neg hqc, if_pos hqp]
                · show a ∈ pn.children ++ [c]
                  refine List.mem_append_left _ ?_
                  rw [hqp, hp] at hq
                  cases hq
                  exact hmem
              · refine ⟨q, nq, by rw [← hpar, hnaq], ?_, hmem⟩
                rw [hget', if_neg hqc, if_neg hqp]
                exact hq
            by_cases hap : a = p
            · rw [if_pos hap] at ha'
              cases ha'
              have : pn.parent = (pn.add_child c).parent := rfl
              obtain ⟨q, nq', h1, h2, h3⟩ := fromOrig pn (by rw [hap] at *; exact hp) this
              exact ⟨q, nq', h1, h2, h3⟩
            · rw [if_neg hap] at ha'
              obtain ⟨q, nq', h1, h2, h3⟩ := fromOrig n' ha' rfl
              exact ⟨q, nq', h1, h2, h3⟩
        · -- rootParent
          intro n' hn'
          have hroot' : ({ s with nodes := (s.nodes.insert p (pn.add_child c)).insert c newNode } : Scene).root = s.root := rfl
          rw [hroot', hget', if_neg hrootc] at hn'
          by_cases hrp : s.root = p
          · rw [if_pos hrp] at hn'
            cases hn'
            show pn.parent = none
            apply hInv.rootParent
            rw [hrp]
            exact hp
          · rw [if_neg hrp] at hn'
            exact hInv.rootParent n' hn'
        · -- idSelf
          intro a n' ha'
          rw [hget'] at ha'
          by_cases hac : a = c
          · rw [if_pos hac] at ha'
            cases ha'
            rw [hac]
            rfl
          · rw [if_neg hac] at ha'
            by_cases hap : a = p
            · rw [if_pos hap] at ha'
              cases ha'
              show pn.id = a
              rw [hap]
              exact hInv.idSelf p pn hp
            · rw [if_neg hap] at ha'
              exact hInv.idSelf a n' ha'
        · -- rankEx: extend the rank at the fresh id
          obtain ⟨rank, hrank⟩ := hInv.rankEx
          refine ⟨fun x => if x = c then rank p + 1 else rank x, ?_⟩
          intro x y hxy
          obtain ⟨nx, hx, hymem⟩ := hxy
          show (if x = c then rank p + 1 else rank x) < (if y = c then rank p + 1 else rank y)
          rw [hget'] at hx
          by_cases hxc : x = c
          · rw [if_pos hxc] at hx
            cases hx
            cases hymem
          · rw [if_neg hxc] at hx
            rw [if_neg hxc]
            by_cases hxp : x = p
            · rw [if_pos hxp] at hx
              cases hx
              rcases List.mem_append.1 hymem with hold | hnw
              · have hykeys : y ∈ s.nodes.keys := children_mem_keys hInv hp hold
                have hyc : y ≠ c := Nat.ne_of_lt (hfresh y hykeys)
                rw [if_neg hyc]
                refine hrank x y ⟨pn, ?_, hold⟩
                rw [hxp]
                exact hp
              · have hyc : y = c := List.mem_singleton.1 hnw
                rw [if_pos hyc, hxp]
                exact Nat.lt_succ_self _
            · rw [if_neg hxp] at hx
              have hykeys : y ∈ s.nodes.keys := children_mem_keys hInv hx hymem
              have hyc : y ≠ c := Nat.ne_of_lt (hfresh y hykeys)
              rw [if_neg hyc]
              exact hrank x y ⟨nx, hx, hymem⟩
        · -- rootless: the root is still present
          intro hg
          exfalso
          obtain ⟨nr, hnr⟩ := hrootmem
          rw [show ({ s with nodes := (s.nodes.insert p (pn.add_child c)).insert c newNode } : Scene).root = s.root from rfl] at hg
          rw [hget', if_neg hrootc] at hg
          by_cases hrp : s.root = p
          · rw [if_pos hrp] at hg
            cases hg
          · rw [if_neg hrp, hnr] at hg
            cases hg
      · -- the freshness bound advances
        intro k hk
        show k < c + 1
        have : k ∈ s.nodes.keys ++ [c] := by
          rw [← hkeys']
          exact hk
        rcases List.mem_append.1 this with hold | hnw
        · exact Nat.lt_succ_of_lt (hfresh k hold)
        · rcases List.mem_singleton.1 hnw with rfl
          exact Nat.lt_succ_self _

end Scene

/-! ## Invariants along attach/detach sequences (claim C6) -/

/-- State invariant: scene invariants plus freshness of the allocator. -/
def StInv (σ : St) : Prop :=
  Inv σ.scene ∧ ∀ k ∈ σ.scene.nodes.keys, k < σ.next

theorem inv_scene_new (k : Nat) : Inv (Scene.new k) := by
  have hget : ∀ a, (Scene.new k).nodes.get a =
      if a = k then some (Node.new k) else none := by
    intro a
    by_cases ha : a = k
    · rw [if_pos ha, ha]
      exact Table.get_insert_self _ k _
    · rw [if_neg ha]
      rw [show (Scene.new k).nodes = Table.empty.insert k (Node.new k) from rfl]
      rw [Table.get_insert_ne _ k a _ ha]
      rfl
  refine ⟨?_, ?_, ?_, ?_, ?_, ?_, ⟨id, ?_⟩, ?_⟩
  · show (Table.empty.insert k (Node.new k)).keys.Nodup
    rw [Table.keys_insert_absent (Table.get_empty k) _]
    simp [Table.empty, Table.keys]
  · intro p np c hp hc
    rw [hget] at hp
    by_cases hpk : p = k
    · rw [if_pos hpk] at hp
      cases hp
      cases hc
    · rw [if_neg hpk] at hp
      cases hp
  · intro p np hp
    rw [hget] at hp
    by_cases hpk : p = k
    · rw [if_pos hpk] at hp
      cases hp
      exact List.nodup_nil
    · rw [if_neg hpk] at hp
      cases hp
  · intro a n ha hra
    rw [hget] at ha
    by_cases hak : a = k
    · exact absurd hak hra
    · rw [if_neg hak] at ha
      cases ha
  · intro n hn
    rw [hget, if_pos (show (Scene.new k).root = k from rfl)] at hn
    cases hn
    rfl
  · intro a n ha
    rw [hget] at ha
    by_cases hak : a = k
    · rw [if_pos hak] at ha
      cases ha
      rw [hak]
      rfl
    · rw [if_neg hak] at ha
      cases ha
  · intro p c hr
    obtain ⟨np, hp, hc⟩ := hr
    rw [hget] at hp
    by_cases hpk : p = k
    · rw [if_pos hpk] at hp
      cases hp
      cases hc
    · rw [if_neg hpk] at hp
      cases hp
  · intro hg
    rw [hget, if_pos (show (Scene.new k).root = k from rfl)] at hg
    cases hg

theorem stInv_init (k : Nat) : StInv (initSt k) := by
  refine ⟨inv_scene_new k, ?_⟩
  intro a ha
  show a < k + 1
  have hk : (Scene.new k).nodes.keys = [k] := by
    rw [show (Scene.new k).nodes = Table.empty.insert k (Node.new k) from rfl]
    rw [Table.keys_insert_absent (Table.get_empty k) _]
    rfl
  have ha' : a ∈ (Scene.new k).nodes.keys := ha
  rw [hk] at ha'
  rcases List.mem_singleton.1 ha' with rfl
  exact Nat.lt_succ_self _

theorem stInv_step {σ : St} (h : StInv σ) (op : Op) : StInv (applyOp σ op) := by
  obtain ⟨hInv, hfresh⟩ := h
  cases op with
  | attach p =>
      show StInv (match σ.scene.add_node p (Node.new σ.next) with
        | AttachOutcome.ok s' => (⟨s', σ.next + 1⟩ : St)
        | AttachOutcome.missingParent _ => ⟨σ.scene, σ.next + 1⟩
        | AttachOutcome.panicked => ⟨σ.scene, σ.next + 1⟩)
      cases hadd : σ.scene.add_node p (Node.new σ.next) with
      | ok s' =>
          obtain ⟨hInv', hfresh'⟩ := Scene.inv_add_node hInv hfresh hadd
          exact ⟨hInv', hfresh'⟩
      | missingParent s' =>
          exact ⟨hInv, fun k hk => Nat.lt_succ_of_lt (hfresh k hk)⟩
      | panicked =>
          exact ⟨hInv, fun k hk => Nat.lt_succ_of_lt (hfresh k hk)⟩
  | detach id =>
      refine ⟨Scene.inv_remove_node hInv id, ?_⟩
      intro k hk
      obtain ⟨v, hv⟩ := Table.exists_get_of_mem_keys hk
      obtain ⟨m, hm, _, _, _⟩ := (Scene.le_remove_node σ.scene id).2 k v hv
      exact hfresh k (Table.mem_keys_of_get hm)

theorem stInv_applyOps {σ : St} (h : StInv σ) (ops : List Op) :
    StInv (applyOps σ ops) := by
  induction ops generalizing σ with
  | nil => exact h
  | cons op rest ih => exact ih (stInv_step h op)

theorem stInv_run (k : Nat) (ops : List Op) : StInv (applyOps (initSt k) ops) :=
  stInv_applyOps (stInv_init k) ops

/-- The §3 invariants exactly as claim C6 states them: every non-root
element's parent exists in the element map, every element appears exactly
once in its parent's children list, and the parent/children relation is a
tree — no cycles, and no element has two parents. -/
def SpecInvariants (s : Scene) : Prop :=
  (∀ a n, s.nodes.get a = some n → a ≠ s.root →
    ∃ p np, n.parent = some p ∧ s.nodes.get p = some np) ∧
  (∀ a n, s.nodes.get a = some n → a ≠ s.root →
    ∃ p np, n.parent = some p ∧ s.nodes.get p = some np ∧ np.children.count a = 1) ∧
  (∀ a, ¬ Relation.TransGen (childRel s) a a) ∧
  (∀ p q c, childRel s p c → childRel s q c → p = q)

theorem specInvariants_of_inv {s : Scene} (hInv : Inv s) : SpecInvariants s := by
  refine ⟨?_, ?_, no_cycle (Wf.of_inv hInv), ?_⟩
  · intro a n ha har
    obtain ⟨p, np, h1, h2, _⟩ := hInv.parentUp a n ha har
    exact ⟨p, np, h1, h2⟩
  · intro a n ha har
    obtain ⟨p, np, h1, h2, h3⟩ := hInv.parentUp a n ha har
    refine ⟨p, np, h1, h2, ?_⟩
    exact List.count_eq_one_of_mem (hInv.childrenNodup p np h2) h3
  · intro p q c hp hq
    obtain ⟨np, hnp, hcp⟩ := hp
    obtain ⟨nq, hnq, hcq⟩ := hq
    obtain ⟨m, hm, hmp⟩ := hInv.childrenBack p np c hnp hcp
    obtain ⟨m', hm', hmq⟩ := hInv.childrenBack q nq c hnq hcq
    rw [hm] at hm'
    cases hm'
    rw [hmp] at hmq
    injection hmq

/-! ## Traversal: `Scene::traverse` visits the attached nodes in pre-order -/

/-- Under the invariants no element has two parents. -/
theorem parent_unique {s : Scene} (hInv : Inv s) {p q c : Nat}
    (hp : childRel s p c) (hq : childRel s q c) : p = q := by
  obtain ⟨np, hnp, hcp⟩ := hp
  obtain ⟨nq, hnq, hcq⟩ := hq
  obtain ⟨m, hm, hmp⟩ := hInv.childrenBack p np c hnp hcp
  obtain ⟨m', hm', hmq⟩ := hInv.childrenBack q nq c hnq hcq
  rw [hm] at hm'
  cases hm'
  rw [hmp] at hmq
  injection hmq

/-- In a forest, two ancestors of the same node are comparable. -/
theorem desc_comparable {s : Scene} (hInv : Inv s) {x y b : Nat} (hx : Desc s x b) :
    Desc s y b → Desc s x y ∨ Desc s y x := by
  induction hx with
  | refl => exact fun hy => Or.inr hy
  | tail hxm hmb ih =>
      intro hy
      rcases Relation.ReflTransGen.cases_tail hy with h1 | ⟨d, hyd, hdb⟩
      · rename_i m b'
        exact Or.inl (h1 ▸ Relation.ReflTransGen.tail hxm hmb)
      · have hdm := parent_unique hInv hdb hmb
        rw [hdm] at hyd
        exact ih hyd

/-- Subtrees of two distinct siblings are disjoint. -/
theorem sibling_desc_eq {s : Scene} (hInv : Inv s) {a c₁ c₂ b : Nat}
    (h₁ : childRel s a c₁) (h₂ : childRel s a c₂)
    (hd₁ : Desc s c₁ b) (hd₂ : Desc s c₂ b) : c₁ = c₂ := by
  have hw : Wf s := Wf.of_inv hInv
  by_contra hne
  rcases desc_comparable hInv hd₁ hd₂ with h | h
  · rcases desc_rank_le hw h with heq | htg
    · exact hne heq
    · obtain ⟨d, hcd, hdc⟩ := Relation.TransGen.tail'_iff.1 htg
      have hda := parent_unique hInv hdc h₂
      rw [hda] at hcd
      exact not_desc_child_self hw h₁ hcd
  · rcases desc_rank_le hw h with heq | htg
    · exact hne heq.symm
    · obtain ⟨d, hcd, hdc⟩ := Relation.TransGen.tail'_iff.1 htg
      have hda := parent_unique hInv hdc h₁
      rw [hda] at hcd
      exact not_desc_child_self hw h₂ hcd

namespace Scene

theorem traverseAux_succ (s : Scene) (f a : Nat) :
    traverseAux s (f + 1) a =
      match s.nodes.get a with
      | none => []
      | some n => n :: n.children.flatMap (fun c => traverseAux s f c) := rfl

/-- Every visited node is in the map and is a descendant of the start. -/
theorem mem_traverseAux {s : Scene} :
    ∀ {fuel a : Nat} {m : Node}, m ∈ traverseAux s fuel a →
      ∃ b, s.nodes.get b = some m ∧ Desc s a b := by
  intro fuel
  induction fuel with
  | zero =>
      intro a m h
      cases h
  | succ f ih =>
      intro a m h
      rw [traverseAux_succ] at h
      cases hg : s.nodes.get a with
      | none =>
          rw [hg] at h
          cases h
      | some n =>
          rw [hg] at h
          rcases List.mem_cons.1 h with rfl | h
          · exact ⟨a, hg, Relation.ReflTransGen.refl⟩
          · obtain ⟨c, hcmem, hmc⟩ := List.mem_flatMap.1 h
            obtain ⟨b, hb, hd⟩ := ih hmc
            exact ⟨b, hb, Relation.ReflTransGen.head ⟨n, hg, hcmem⟩ hd⟩

/-- Id-level version of `mem_traverseAux` (needs `idSelf`). -/
theorem mem_ids_traverseAux {s : Scene} (hInv : Inv s) {fuel a b : Nat}
    (h : b ∈ (traverseAux s fuel a).map Node.id) :
    ∃ m, s.nodes.get b = some m ∧ Desc s a b := by
  obtain ⟨m, hm, hid⟩ := List.mem_map.1 h
  obtain ⟨b', hb', hd⟩ := mem_traverseAux hm
  have hbb : b' = b := by rw [← hid, hInv.idSelf b' m hb']
  rw [hbb] at hb' hd
  exact ⟨m, hb', hd⟩

end Scene

/-- Explicit parent-to-descendant chains, recording the visited ids
(including the start, excluding nothing). -/
inductive ChainL (s : Scene) : Nat → List Nat → Nat → Prop where
  | refl (a : Nat) : ChainL s a [a] a
  | step {a c b : Nat} {l : List Nat} (h : childRel s a c) (hc : ChainL s c l b) :
      ChainL s a (a :: l) b

theorem ChainL.length_pos {s : Scene} {a b : Nat} {l : List Nat}
    (h : ChainL s a l b) : 0 < l.length := by
  cases h <;> simp

theorem ChainL.mem_keys {s : Scene} {a b : Nat} {l : List Nat} (h : ChainL s a l b)
    {nb : Node} (hb : s.nodes.get b = some nb) : ∀ x ∈ l, x ∈ s.nodes.keys := by
  induction h with
  | refl a =>
      intro x hx
      rcases List.mem_singleton.1 hx with rfl
      exact Table.mem_keys_of_get hb
  | step hrel hc ih =>
      intro x hx
      rcases List.mem_cons.1 hx with rfl | hx
      · obtain ⟨np, hnp, _⟩ := hrel
        exact Table.mem_keys_of_get hnp
      · exact ih hb x hx

theorem ChainL.rank_mono {s : Scene} {rank : Nat → Nat}
    (hrank : ∀ p c, childRel s p c → rank p < rank c) {a b : Nat} {l : List Nat}
    (h : ChainL s a l b) : ∀ x ∈ l, rank a ≤ rank x := by
  induction h with
  | refl a =>
      intro x hx
      rcases List.mem_singleton.1 hx with rfl
      exact le_refl _
  | step hrel hc ih =>
      intro x hx
      rcases List.mem_cons.1 hx with rfl | hx
      · exact le_refl _
      · exact le_of_lt (Nat.lt_of_lt_of_le (hrank _ _ hrel) (ih x hx))

theorem ChainL.nodup {s : Scene} (hInv : Inv s) {a b : Nat} {l : List Nat}
    (h : ChainL s a l b) : l.Nodup := by
  obtain ⟨rank, hrank⟩ := hInv.rankEx
  induction h with
  | refl a => exact List.nodup_singleton a
  | step hrel hc ih =>
      refine List.Nodup.cons ?_ ih
      intro hmem
      have := ChainL.rank_mono hrank hc _ hmem
      exact absurd (Nat.lt_of_lt_of_le (hrank _ _ hrel) this) (lt_irrefl _)

/-- A chain's length is bounded by the number of nodes. -/
theorem ChainL.length_le {s : Scene} (hInv : Inv s) {a b : Nat} {l : List Nat}
    (h : ChainL s a l b) {nb : Node} (hb : s.nodes.get b = some nb) :
    l.length ≤ s.nodes.size := by
  have hnd : l.Nodup := h.nodup hInv
  have hsub : ∀ x ∈ l, x ∈ s.nodes.keys := h.mem_keys hb
  have h1 : l.length = l.toFinset.card := (List.toFinset_card_of_nodup hnd).symm
  have h2 : l.toFinset ⊆ s.nodes.keys.toFinset := by
    intro x hx
    rw [List.mem_toFinset] at hx
    rw [List.mem_toFinset]
    exact hsub x hx
  have h3 : s.nodes.keys.toFinset.card = s.nodes.keys.length :=
    List.toFinset_card_of_nodup hInv.nodupKeys
  have h4 : s.nodes.keys.length = s.nodes.size := by
    unfold Table.keys Table.size
    exact List.length_map _ _
  rw [h1, ← h4, ← h3]
  exact Finset.card_le_card h2

/-- Every present node is the endpoint of a chain from the root. -/
theorem chain_from_root {s : Scene} (hInv : Inv s) {b : Nat} {nb : Node}
    (hb : s.nodes.get b = some nb) : ∃ l, ChainL s s.root l b := by
  obtain ⟨rank, hrank⟩ := hInv.rankEx
  have main : ∀ k, ∀ b nb, s.nodes.get b = some nb → rank b < k →
      ∃ l, ChainL s s.root l b := by
    intro k
    induction k with
    | zero =>
        intro b nb _ hk
        cases hk
    | succ k ih =>
        intro b nb hb hk
        by_cases hbr : b = s.root
        · exact ⟨[b], hbr ▸ ChainL.refl b⟩
        · obtain ⟨p, np, _, hp, hmem⟩ := hInv.parentUp b nb hb hbr
          have hrel : childRel s p b := ⟨np, hp, hmem⟩
          obtain ⟨l, hl⟩ := ih p np hp
            (Nat.lt_of_lt_of_le (hrank p b hrel) (Nat.lt_succ_iff.1 hk))
          -- extend the chain by the final edge
          have : ∀ {a : Nat} {l : List Nat} {p : Nat}, ChainL s a l p →
              childRel s p b → ∃ l', ChainL s a l' b := by
            intro a l p hc
            induction hc with
            | refl a => exact fun hrel => ⟨[a, b], ChainL.step hrel (ChainL.refl b)⟩
            | step hrel' hc' ih' =>
                intro hrel
                obtain ⟨l', hl'⟩ := ih' hrel
                exact ⟨_ :: l', ChainL.step hrel' hl'⟩
          exact this hl hrel
  exact main (rank b + 1) b nb hb (Nat.lt_succ_self _)

namespace Scene

/-- With enough fuel, the endpoint of any chain is visited. -/
theorem chain_visit {s : Scene} :
    ∀ {fuel : Nat} {a b : Nat} {l : List Nat} {nb : Node}, ChainL s a l b →
      l.length ≤ fuel → s.nodes.get b = some nb → nb ∈ traverseAux s fuel a := by
  intro fuel
  induction fuel with
  | zero =>
      intro a b l nb hc hlen _
      have := hc.length_pos
      exact absurd (Nat.lt_of_lt_of_le this hlen) (lt_irrefl 0)
  | succ f ih =>
      intro a b l nb hc hlen hb
      cases hc with
      | refl =>
          rw [traverseAux_succ, hb]
          exact List.mem_cons_self _ _
      | step hrel hc' =>
          obtain ⟨np, hnp, hcmem⟩ := hrel
          rw [traverseAux_succ, hnp]
          refine List.mem_cons_of_mem _ ?_
          refine List.mem_flatMap.2 ⟨_, hcmem, ?_⟩
          refine ih hc' ?_ hb
          simpa using Nat.succ_le_succ_iff.1 (by simpa using hlen)

/-- Completeness: with the invariants, `traverseList` visits every node in
the map. -/
theorem traverseList_complete {s : Scene} (hInv : Inv s) {b : Nat} {nb : Node}
    (hb : s.nodes.get b = some nb) : nb ∈ s.traverseList := by
  obtain ⟨l, hl⟩ := chain_from_root hInv hb
  exact chain_visit hl (hl.length_le hInv hb) hb

end Scene

/-! ### List helpers for the pre-order proofs -/

theorem nodup_flatMap_of {α : Type} (cs : List Nat) (f : Nat → List α)
    (h1 : ∀ c ∈ cs, (f c).Nodup)
    (h2 : ∀ c₁ ∈ cs, ∀ c₂ ∈ cs, c₁ ≠ c₂ → ∀ x, x ∈ f c₁ → x ∈ f c₂ → False)
    (h3 : cs.Nodup) : (cs.flatMap f).Nodup := by
  induction cs with
  | nil => simp
  | cons c₀ cs' ih =>
      rw [List.flatMap_cons, List.nodup_append]
      refine ⟨h1 c₀ (List.mem_cons_self _ _), ?_, ?_⟩
      · refine ih (fun c hc => h1 c (List.mem_cons_of_mem _ hc))
          (fun c₁ hc₁ c₂ hc₂ => h2 c₁ (List.mem_cons_of_mem _ hc₁) c₂
            (List.mem_cons_of_mem _ hc₂))
          (List.Nodup.of_cons h3)
      · intro x hx hx'
        obtain ⟨c₂, hc₂, hxc₂⟩ := List.mem_flatMap.1 hx'
        have hne : c₀ ≠ c₂ := by
          rintro rfl
          exact (List.nodup_cons.1 h3).1 hc₂
        exact h2 c₀ (List.mem_cons_self _ _) c₂ (List.mem_cons_of_mem _ hc₂) hne x hx hxc₂

theorem filter_flatMap_eq {α : Type} (cs : List Nat) (f : Nat → List α) (p : α → Bool) :
    (cs.flatMap f).filter p = cs.flatMap (fun c => (f c).filter p) := by
  induction cs with
  | nil => rfl
  | cons c₀ cs' ih => rw [List.flatMap_cons, List.flatMap_cons, List.filter_append, ih]

theorem flatMap_congr_mem {α : Type} (cs : List Nat) (f g : Nat → List α)
    (h : ∀ c ∈ cs, f c = g c) : cs.flatMap f = cs.flatMap g := by
  induction cs with
  | nil => rfl
  | cons c₀ cs' ih =>
      rw [List.flatMap_cons, List.flatMap_cons, h c₀ (List.mem_cons_self _ _),
        ih (fun c hc => h c (List.mem_cons_of_mem _ hc))]

theorem flatMap_singleton_id (cs : List Nat) : cs.flatMap (fun c => [c]) = cs := by
  induction cs with
  | nil => rfl
  | cons c₀ cs' ih => rw [List.flatMap_cons, ih]; rfl

theorem filter_eq_singleton_of {l : List Nat} {p : Nat → Bool} {e : Nat}
    (hnd : l.Nodup) (he : e ∈ l) (hpe : p e = true)
    (huniq : ∀ y ∈ l, p y = true → y = e) : l.filter p = [e] := by
  induction l with
  | nil => cases he
  | cons h t ih =>
      rcases List.mem_cons.1 he with rfl | het
      · rw [List.filter_cons, if_pos hpe]
        have ht : t.filter p = [] := by
          rw [List.filter_eq_nil_iff]
          intro y hy hpy
          have := huniq y (List.mem_cons_of_mem _ hy) hpy
          rw [this] at hy
          exact (List.nodup_cons.1 hnd).1 hy
        rw [ht]
      · have hph : p h = false := by
          cases hph : p h with
          | false => rfl
          | true =>
              have heq := huniq h (List.mem_cons_self _ _) hph
              rw [heq] at hnd
              exact absurd het (List.nodup_cons.1 hnd).1
        rw [List.filter_cons, hph]
        simp only [Bool.false_eq_true, if_false]
        exact ih (List.nodup_cons.1 hnd).2 het
          (fun y hy hpy => huniq y (List.mem_cons_of_mem _ hy) hpy)

namespace Scene

/-- Uniqueness: traversal never visits an id twice. -/
theorem nodup_ids_traverseAux {s : Scene} (hInv : Inv s) :
    ∀ (fuel a : Nat), ((traverseAux s fuel a).map Node.id).Nodup := by
  intro fuel
  induction fuel with
  | zero =>
      intro a
      exact List.nodup_nil
  | succ f ih =>
      intro a
      rw [traverseAux_succ]
      cases hg : s.nodes.get a with
      | none => exact List.nodup_nil
      | some n =>
          simp only [List.map_cons, List.map_flatMap]
          rw [List.nodup_cons]
          constructor
          · intro hmem
            obtain ⟨c, hcmem, hin⟩ := List.mem_flatMap.1 hmem
            obtain ⟨m, hm, hd⟩ := mem_ids_traverseAux hInv hin
            have hna : n.id = a := hInv.idSelf a n hg
            rw [hna] at hd
            exact not_desc_child_self (Wf.of_inv hInv) ⟨n, hg, hcmem⟩ hd
          · refine nodup_flatMap_of n.children _ (fun c _ => ih c) ?_
              (hInv.childrenNodup a n hg)
            intro c₁ h₁ c₂ h₂ hne x hx₁ hx₂
            obtain ⟨m₁, hm₁, hd₁⟩ := mem_ids_traverseAux hInv hx₁
            obtain ⟨m₂, hm₂, hd₂⟩ := mem_ids_traverseAux hInv hx₂
            exact hne (sibling_desc_eq hInv ⟨n, hg, h₁⟩ ⟨n, hg, h₂⟩ hd₁ hd₂)

/-- Pre-order: a node is visited strictly before each of its children. -/
theorem traverse_order {s : Scene} (hInv : Inv s) :
    ∀ (fuel a : Nat) {x c : Nat} {nx : Node}, s.nodes.get x = some nx →
      c ∈ nx.children →
      x ∈ (traverseAux s fuel a).map Node.id →
      c ∈ (traverseAux s fuel a).map Node.id →
      ((traverseAux s fuel a).map Node.id).indexOf x <
        ((traverseAux s fuel a).map Node.id).indexOf c := by
  intro fuel
  induction fuel with
  | zero =>
      intro a x c nx _ _ hxmem _
      cases hxmem
  | succ f ih =>
      intro a x c nx hx hc hxmem hcmem
      have hw : Wf s := Wf.of_inv hInv
      rw [traverseAux_succ] at hxmem hcmem ⊢
      cases hg : s.nodes.get a with
      | none =>
          rw [hg] at hxmem
          cases hxmem
      | some n =>
          simp only [hg] at hxmem hcmem ⊢
          have hna : n.id = a := hInv.idSelf a n hg
          simp only [List.map_cons, List.map_flatMap] at hxmem hcmem ⊢
          have hcx : childRel s x c := ⟨nx, hx, hc⟩
          by_cases hxa : x = a
          · -- the start is the head; children sit strictly later
            have hxn : x = n.id := by rw [hna, hxa]
            have hcn : c ≠ n.id := by
              intro hceq
              rw [hxa, hceq, hna] at hcx
              exact no_cycle hw a (Relation.TransGen.single hcx)
            rw [List.indexOf_cons_eq _ hxn.symm]
            rw [List.indexOf_cons_ne _ fun h => hcn h.symm]
            exact Nat.succ_pos _
          · -- x sits inside the subtree list of a unique child of a
            have hxne : x ≠ n.id := by rw [hna]; exact hxa
            rcases List.mem_cons.1 hxmem with h | hxflat
            · exact absurd h hxne
            obtain ⟨ci, hci, hxin⟩ := List.mem_flatMap.1 hxflat
            obtain ⟨mx, hmx, hdx⟩ := mem_ids_traverseAux hInv hxin
            have hdc : Desc s ci c := hdx.tail hcx
            have hDax : Desc s a x :=
              Relation.ReflTransGen.head ⟨n, hg, hci⟩ hdx
            have hcne : c ≠ n.id := by
              rw [hna]
              intro hceq
              rw [hceq] at hcx
              exact not_desc_child_self hw hcx hDax
            rcases List.mem_cons.1 hcmem with h | hcflat
            · exact absurd h hcne
            obtain ⟨cj, hcj, hcin⟩ := List.mem_flatMap.1 hcflat
            obtain ⟨mc, hmc, hdcj⟩ := mem_ids_traverseAux hInv hcin
            have hij : ci = cj :=
              sibling_desc_eq hInv ⟨n, hg, hci⟩ ⟨n, hg, hcj⟩ hdc hdcj
            rw [← hij] at hcin
            -- split the sibling subtree lists around `ci`
            obtain ⟨cs₁, cs₂, hsplit⟩ := List.append_of_mem hci
            have hcsnd : n.children.Nodup := hInv.childrenNodup a n hg
            have hci1 : ci ∉ cs₁ := by
              rw [hsplit] at hcsnd
              intro hmem
              exact (List.disjoint_of_nodup_append hcsnd) hmem (List.mem_cons_self _ _)
            have hnotinA : ∀ y, Desc s ci y →
                y ∉ cs₁.flatMap (fun cc => (traverseAux s f cc).map Node.id) := by
              intro y hy hmem
              obtain ⟨cj', hcj', hyin⟩ := List.mem_flatMap.1 hmem
              obtain ⟨my, hmy, hdy⟩ := mem_ids_traverseAux hInv hyin
              have : ci = cj' := by
                refine sibling_desc_eq hInv ⟨n, hg, hci⟩ ⟨n, hg, ?_⟩ hy hdy
                rw [hsplit]
                exact List.mem_append_left _ hcj'
              rw [this] at hci1
              exact hci1 hcj'
            rw [List.indexOf_cons_ne _ fun h => hxne h.symm,
              List.indexOf_cons_ne _ fun h => hcne h.symm]
            rw [Nat.succ_lt_succ_iff]
            rw [hsplit, List.flatMap_append, List.flatMap_cons]
            rw [List.indexOf_append_of_not_mem (hnotinA x hdx),
              List.indexOf_append_of_not_mem (hnotinA c hdc)]
            refine Nat.add_lt_add_left ?_ _
            rw [List.indexOf_append_of_mem hxin, List.indexOf_append_of_mem hcin]
            exact ih ci hx hc hxin hcin

/-- Sibling order: restricted to the children of any visited node, the
traversal order is exactly the stored children order. -/
theorem traverse_filter_children {s : Scene} (hInv : Inv s) :
    ∀ (fuel a : Nat) {x : Nat} {nx : Node}, s.nodes.get x = some nx →
      x ∈ (traverseAux s fuel a).map Node.id →
      (∀ c ∈ nx.children, c ∈ (traverseAux s fuel a).map Node.id) →
      ((traverseAux s fuel a).map Node.id).filter
        (fun y => decide (y ∈ nx.children)) = nx.children := by
  intro fuel
  induction fuel with
  | zero =>
      intro a x nx _ hxmem _
      cases hxmem
  | succ f ih =>
      intro a x nx hx hxmem hcomp
      have hw : Wf s := Wf.of_inv hInv
      rw [traverseAux_succ] at hxmem hcomp ⊢
      cases hg : s.nodes.get a with
      | none =>
          simp only [hg] at hxmem
          cases hxmem
      | some n =>
          simp only [hg] at hxmem hcomp ⊢
          have hna : n.id = a := hInv.idSelf a n hg
          simp only [List.map_cons, List.map_flatMap] at hxmem hcomp ⊢
          by_cases hxa : x = a
          · -- the filter keyed on the children of the start node
            have hnx : nx = n := by
              rw [hxa, hg] at hx
              injection hx with hx
              exact hx.symm
            subst hnx
            have hhead : (decide (nx.id ∈ nx.children)) = false := by
              apply decide_eq_false
              intro hmem
              rw [hna] at hmem
              exact no_cycle hw a (Relation.TransGen.single ⟨nx, hg, hmem⟩)
            rw [List.filter_cons, hhead]
            simp only [Bool.false_eq_true, if_false]
            rw [filter_flatMap_eq]
            have hcomp' : ∀ ci ∈ nx.children,
                ((traverseAux s f ci).map Node.id).filter
                  (fun y => decide (y ∈ nx.children)) = [ci] := by
              intro ci hci
              have hcimem : ci ∈ nx.children.flatMap
                  (fun c => (traverseAux s f c).map Node.id) := by
                rcases List.mem_cons.1 (hcomp ci hci) with h | h
                · exfalso
                  rw [hna] at h
                  rw [h] at hci
                  exact no_cycle hw a (Relation.TransGen.single ⟨nx, hg, hci⟩)
                · exact h
              obtain ⟨cj, hcj, hciin⟩ := List.mem_flatMap.1 hcimem
              obtain ⟨mi, hmi, hdji⟩ := mem_ids_traverseAux hInv hciin
              have hjc : cj = ci := sibling_desc_eq hInv ⟨nx, hg, hcj⟩ ⟨nx, hg, hci⟩
                hdji Relation.ReflTransGen.refl
              rw [hjc] at hciin
              refine filter_eq_singleton_of (nodup_ids_traverseAux hInv f ci) hciin
                (decide_eq_true hci) ?_
              intro y hy hpy
              have hymem : y ∈ nx.children := of_decide_eq_true hpy
              obtain ⟨my, hmy, hdy⟩ := mem_ids_traverseAux hInv hy
              by_cases hyci : y = ci
              · exact hyci
              · exfalso
                rcases desc_rank_le hw hdy with heq | htg
                · exact hyci heq.symm
                · obtain ⟨d, hcd, hdy'⟩ := Relation.TransGen.tail'_iff.1 htg
                  have hda := parent_unique hInv hdy' ⟨nx, hg, hymem⟩
                  rw [hda] at hcd
                  exact not_desc_child_self hw ⟨nx, hg, hci⟩ hcd
            rw [flatMap_congr_mem _ _ _ hcomp', flatMap_singleton_id]
          · -- x lives inside a unique sibling subtree
            have hxne : x ≠ n.id := by rw [hna]; exact hxa
            rcases List.mem_cons.1 hxmem with h | hxflat
            · exact absurd h hxne
            obtain ⟨ci, hci, hxin⟩ := List.mem_flatMap.1 hxflat
            obtain ⟨mx, hmx, hdx⟩ := mem_ids_traverseAux hInv hxin
            have hDax : Desc s a x := Relation.ReflTransGen.head ⟨n, hg, hci⟩ hdx
            have key : ∀ cj, cj ∈ n.children → ∀ y,
                y ∈ (traverseAux s f cj).map Node.id → y ∈ nx.children → cj = ci := by
              intro cj hcj y hyin hychild
              obtain ⟨my, hmy, hdy⟩ := mem_ids_traverseAux hInv hyin
              have hxy : childRel s x y := ⟨nx, hx, hychild⟩
              by_cases hycj : y = cj
              · exfalso
                rw [hycj] at hxy
                have h1 := parent_unique hInv hxy ⟨n, hg, hcj⟩
                exact hxa h1
              · rcases desc_rank_le hw hdy with heq | htg
                · exact absurd heq.symm hycj
                · obtain ⟨d, hcd, hdy'⟩ := Relation.TransGen.tail'_iff.1 htg
                  have hdxeq := parent_unique hInv hdy' hxy
                  rw [hdxeq] at hcd
                  exact sibling_desc_eq hInv ⟨n, hg, hcj⟩ ⟨n, hg, hci⟩ hcd hdx
            have hhead : (decide (n.id ∈ nx.children)) = false := by
              apply decide_eq_false
              intro hmem
              rw [hna] at hmem
              exact not_desc_child_self hw ⟨nx, hx, hmem⟩ hDax
            rw [List.filter_cons, hhead]
            simp only [Bool.false_eq_true, if_false]
            obtain ⟨cs₁, cs₂, hsplit⟩ := List.append_of_mem hci
            have hcsnd : n.children.Nodup := hInv.childrenNodup a n hg
            have hci1 : ci ∉ cs₁ := by
              rw [hsplit] at hcsnd
              intro hmem
              exact (List.disjoint_of_nodup_append hcsnd) hmem (List.mem_cons_self _ _)
            have hci2 : ci ∉ cs₂ := by
              rw [hsplit] at hcsnd
              have := (List.nodup_append.1 hcsnd).2.1
              exact (List.nodup_cons.1 this).1
            rw [hsplit, List.flatMap_append, List.flatMap_cons, List.filter_append,
              List.filter_append]
            have hA : (cs₁.flatMap (fun cc => (traverseAux s f cc).map Node.id)).filter
                (fun y => decide (y ∈ nx.children)) = [] := by
              rw [List.filter_eq_nil_iff]
              intro y hy hpy
              obtain ⟨cj, hcj, hyin⟩ := List.mem_flatMap.1 hy
              have : cj = ci := key cj (by rw [hsplit]; exact List.mem_append_left _ hcj)
                y hyin (of_decide_eq_true hpy)
              rw [this] at hcj
              exact hci1 hcj
            have hB : (cs₂.flatMap (fun cc => (traverseAux s f cc).map Node.id)).filter
                (fun y => decide (y ∈ nx.children)) = [] := by
              rw [List.filter_eq_nil_iff]
              intro y hy hpy
              obtain ⟨cj, hcj, hyin⟩ := List.mem_flatMap.1 hy
              have : cj = ci := key cj (by
                  rw [hsplit]
                  exact List.mem_append_right _ (List.mem_cons_of_mem _ hcj))
                y hyin (of_decide_eq_true hpy)
              rw [this] at hcj
              exact hci2 hcj
            rw [hA, hB]
            rw [List.nil_append, List.append_nil]
            refine ih ci hx hxin ?_
            intro c hc
            rcases List.mem_cons.1 (hcomp c hc) with h | hcflat
            · exfalso
              rw [hna] at h
              rw [h] at hc
              exact not_desc_child_self hw ⟨nx, hx, hc⟩ hDax
            · obtain ⟨cj, hcj, hcin⟩ := List.mem_flatMap.1 hcflat
              have := key cj hcj c hcin hc
              rw [this] at hcin
              exact hcin

/-- Id membership in the traversal is exactly presence in the map. -/
theorem mem_ids_traverseList_iff {s : Scene} (hInv : Inv s) (b : Nat) :
    b ∈ s.traverseList.map Node.id ↔ ∃ m, s.nodes.get b = some m := by
  constructor
  · intro h
    obtain ⟨m, hm, _⟩ := mem_ids_traverseAux hInv h
    exact ⟨m, hm⟩
  · rintro ⟨m, hm⟩
    have hmem := traverseList_complete hInv hm
    exact List.mem_map.2 ⟨m, hmem, hInv.idSelf b m hm⟩

end Scene

/-! ## Render-pass characterization (`Renderer::draw_scene`) -/

namespace Renderer

theorem drawStep_none {d : Delegate} {acc : Table CachedMesh × List Nat} {n : Node}
    (h : n.shape = none) : drawStep d acc n = acc := by
  unfold drawStep
  rw [h]

theorem drawStep_some {d : Delegate} {acc : Table CachedMesh × List Nat} {n : Node}
    {sh : Shape} (h : n.shape = some sh) :
    drawStep d acc n =
      ((if n.is_dirty || (acc.1.get n.id).isNone then
          acc.1.insert n.id ⟨tessellate_shape d sh⟩
        else acc.1), acc.2 ++ [n.id]) := by
  unfold drawStep
  rw [h]

/-- The draw list accumulated by the traversal closure: the ids of the
shaped nodes, in visit order. -/
theorem foldl_drawStep_snd (d : Delegate) (ns : List Node) (c : Table CachedMesh)
    (dl : List Nat) :
    (ns.foldl (drawStep d) (c, dl)).2 =
      dl ++ (ns.filter (fun n => n.shape.isSome)).map Node.id := by
  induction ns generalizing c dl with
  | nil => simp
  | cons m ns ih =>
      rw [List.foldl_cons]
      cases hm : m.shape with
      | none =>
          rw [drawStep_none hm, ih, List.filter_cons]
          have : (m.shape.isSome) = false := by rw [hm]; rfl
          rw [this]
          simp
      | some sh =>
          rw [drawStep_some hm]
          simp only
          rw [ih, List.filter_cons]
          have : (m.shape.isSome) = true := by rw [hm]; rfl
          rw [this]
          simp

/-- Keys never visited are never touched. -/
theorem foldl_drawStep_get_not_mem (d : Delegate) (ns : List Node)
    (c : Table CachedMesh) (dl : List Nat) (a : Nat) (ha : a ∉ ns.map Node.id) :
    ((ns.foldl (drawStep d) (c, dl)).1).get a = c.get a := by
  induction ns generalizing c dl with
  | nil => rfl
  | cons m ns ih =>
      simp only [List.map_cons, List.mem_cons, not_or] at ha
      rw [List.foldl_cons]
      cases hm : m.shape with
      | none =>
          rw [drawStep_none hm]
          exact ih c dl ha.2
      | some sh =>
          rw [drawStep_some hm]
          simp only
          rw [ih _ _ ha.2]
          by_cases hcond : m.is_dirty || ((c.get m.id).isNone)
          · rw [if_pos hcond, Table.get_insert_ne _ m.id a _ ha.1]
          · rw [if_neg hcond]

/-- The cache entry of a visited shaped node after the pass: refreshed with
the delegate's output exactly when the node was dirty or uncached, kept
otherwise. -/
theorem foldl_drawStep_get_shaped (d : Delegate) (ns : List Node)
    (c : Table CachedMesh) (dl : List Nat) {a : Nat} {n : Node} {sh : Shape}
    (hnd : (ns.map Node.id).Nodup) (hmem : n ∈ ns) (hid : n.id = a)
    (hsh : n.shape = some sh) :
    ((ns.foldl (drawStep d) (c, dl)).1).get a =
      if n.dirty || (c.get a).isNone then some ⟨tessellate_shape d sh⟩
      else c.get a := by
  induction ns generalizing c dl with
  | nil => cases hmem
  | cons m ns ih =>
      simp only [List.map_cons, List.nodup_cons] at hnd
      rw [List.foldl_cons]
      rcases List.mem_cons.1 hmem with rfl | hmem'
      · -- the node itself is processed now; later steps use other keys
        rw [drawStep_some hsh]
        simp only
        have hrest : a ∉ ns.map Node.id := by
          rw [← hid]
          exact hnd.1
        rw [foldl_drawStep_get_not_mem d ns _ _ a hrest]
        rw [hid]
        show (if n.dirty || ((c.get a).isNone) then
            c.insert a ⟨tessellate_shape d sh⟩ else c).get a = _
        by_cases hcond : n.dirty || ((c.get a).isNone)
        · rw [if_pos hcond, if_pos hcond, Table.get_insert_self]
        · rw [if_neg hcond, if_neg hcond]
      · -- another node first; it cannot alias our key
        have hma : m.id ≠ a := by
          intro h
          apply hnd.1
          rw [h, ← hid]
          exact List.mem_map.2 ⟨n, hmem', rfl⟩
        cases hm : m.shape with
        | none =>
            rw [drawStep_none hm]
            exact ih c dl hnd.2 hmem'
        | some sh' =>
            rw [drawStep_some hm]
            simp only
            have hpres : ∀ (c₁ : Table CachedMesh),
                (if m.is_dirty || ((c₁.get m.id).isNone) then
                  c₁.insert m.id ⟨tessellate_shape d sh'⟩ else c₁).get a = c₁.get a := by
              intro c₁
              by_cases hcond : m.is_dirty || ((c₁.get m.id).isNone)
              · rw [if_pos hcond, Table.get_insert_ne _ _ _ _ (fun h => hma h.symm)]
              · rw [if_neg hcond]
            rw [ih _ _ hnd.2 hmem', hpres c]

/-- Same, for a visited node without a shape: its entry is untouched. -/
theorem foldl_drawStep_get_shapeless (d : Delegate) (ns : List Node)
    (c : Table CachedMesh) (dl : List Nat) {a : Nat} {n : Node}
    (hnd : (ns.map Node.id).Nodup) (hmem : n ∈ ns) (hid : n.id = a)
    (hsh : n.shape = none) :
    ((ns.foldl (drawStep d) (c, dl)).1).get a = c.get a := by
  induction ns generalizing c dl with
  | nil => cases hmem
  | cons m ns ih =>
      simp only [List.map_cons, List.nodup_cons] at hnd
      rw [List.foldl_cons]
      rcases List.mem_cons.1 hmem with rfl | hmem'
      · rw [drawStep_none hsh]
        refine foldl_drawStep_get_not_mem d ns _ _ a ?_
        rw [← hid]
        exact hnd.1
      · have hma : m.id ≠ a := by
          intro h
          apply hnd.1
          rw [h, ← hid]
          exact List.mem_map.2 ⟨n, hmem', rfl⟩
        cases hm : m.shape with
        | none =>
            rw [drawStep_none hm]
            exact ih c dl hnd.2 hmem'
        | some sh' =>
            rw [drawStep_some hm]
            simp only
            rw [ih _ _ hnd.2 hmem']
            by_cases hcond : m.is_dirty || ((c.get m.id).isNone)
            · rw [if_pos hcond, Table.get_insert_ne _ _ _ _ (fun h => hma h.symm)]
            · rw [if_neg hcond]

theorem nodup_ids_traverseList {s : Scene} (hInv : Inv s) :
    (s.traverseList.map Node.id).Nodup :=
  Scene.nodup_ids_traverseAux hInv s.nodes.size s.root

/-- Cache entry of a shaped element after a pass: regenerated from the
delegate iff the element was dirty or uncached, untouched otherwise. -/
theorem draw_scene_get_shaped {s : Scene} (hInv : Inv s) {a : Nat} {n : Node}
    {sh : Shape} (hg : s.nodes.get a = some n) (hsh : n.shape = some sh)
    (d : Delegate) (c₀ : Table CachedMesh) :
    (draw_scene d s c₀).1.get a =
      if n.dirty || (c₀.get a).isNone then some ⟨tessellate_shape d sh⟩
      else c₀.get a :=
  foldl_drawStep_get_shaped d s.traverseList c₀ [] (nodup_ids_traverseList hInv)
    (Scene.traverseList_complete hInv hg) (hInv.idSelf a n hg) hsh

/-- Cache entry of a shapeless element after a pass: untouched. -/
theorem draw_scene_get_shapeless {s : Scene} (hInv : Inv s) {a : Nat} {n : Node}
    (hg : s.nodes.get a = some n) (hsh : n.shape = none)
    (d : Delegate) (c₀ : Table CachedMesh) :
    (draw_scene d s c₀).1.get a = c₀.get a :=
  foldl_drawStep_get_shapeless d s.traverseList c₀ [] (nodup_ids_traverseList hInv)
    (Scene.traverseList_complete hInv hg) (hInv.idSelf a n hg) hsh

/-- Cache entries of ids no longer in the scene are untouched (no pruning,
no overwriting). -/
theorem draw_scene_get_absent {s : Scene} (hInv : Inv s) {a : Nat}
    (hg : s.nodes.get a = none) (d : Delegate) (c₀ : Table CachedMesh) :
    (draw_scene d s c₀).1.get a = c₀.get a := by
  refine foldl_drawStep_get_not_mem d s.traverseList c₀ [] a ?_
  intro hmem
  obtain ⟨m, hm⟩ := (Scene.mem_ids_traverseList_iff hInv a).1 hmem
  rw [hg] at hm
  cases hm

/-- The frame's draw list: the shaped elements in traversal order. -/
theorem draw_scene_drawList (d : Delegate) (s : Scene) (c₀ : Table CachedMesh) :
    (draw_scene d s c₀).2 =
      (s.traverseList.filter (fun n => n.shape.isSome)).map Node.id := by
  unfold draw_scene
  rw [foldl_drawStep_snd]
  rfl

/-- A shapeless element never enters the draw list. -/
theorem not_mem_drawList_shapeless {s : Scene} (hInv : Inv s) {a : Nat} {n : Node}
    (hg : s.nodes.get a = some n) (hsh : n.shape = none)
    (d : Delegate) (c₀ : Table CachedMesh) : a ∉ (draw_scene d s c₀).2 := by
  rw [draw_scene_drawList]
  intro hmem
  obtain ⟨m, hmmem, hmid⟩ := List.mem_map.1 hmem
  obtain ⟨hmvis, hmsh⟩ := List.mem_filter.1 hmmem
  have hnvis := Scene.traverseList_complete hInv hg
  have hnid : n.id = a := hInv.idSelf a n hg
  have heq : m = n :=
    List.inj_on_of_nodup_map (nodup_ids_traverseList hInv) hmvis hnvis
      (by rw [hmid, hnid])
  rw [heq, hsh] at hmsh
  cases hmsh

/-- A shaped element always enters the draw list. -/
theorem mem_drawList_shaped {s : Scene} (hInv : Inv s) {a : Nat} {n : Node}
    {sh : Shape} (hg : s.nodes.get a = some n) (hsh : n.shape = some sh)
    (d : Delegate) (c₀ : Table CachedMesh) : a ∈ (draw_scene d s c₀).2 := by
  rw [draw_scene_drawList]
  refine List.mem_map.2 ⟨n, ?_, hInv.idSelf a n hg⟩
  refine List.mem_filter.2 ⟨Scene.traverseList_complete hInv hg, ?_⟩
  rw [hsh]
  rfl

theorem tessellate_shape_eq (d : Delegate) (sh : Shape) :
    tessellate_shape d sh = (d sh).2 := by
  cases sh
  rfl

end Renderer

/-! ## Concrete material for witnesses and counterexamples -/

/-- A delegate that always succeeds, producing one vertex. -/
def okDelegate : Delegate := fun _ => (true, [⟨(0, 0)⟩])

/-- A delegate that reports failure and produces no vertices (the renderer
discards the report either way). -/
def failDelegate : Delegate := fun _ => (false, [])

/-- The demo rectangle (`Frame::new`: 200 × 100). -/
def demoRect : Shape := Shape.rect ⟨200, 100⟩

/-- A shaped, dirty element with id 2 attached under the root id 1. -/
def demoChild : Node :=
  { id := 2
    parent := some 1
    children := []
    transform := Transform.default
    shape := some demoRect
    style := Style.default
    on_event := none
    dirty := true }

/-- The root node of the demo scene, id 1, with the single child 2. -/
def demoRoot : Node :=
  { id := 1
    parent := none
    children := [2]
    transform := Transform.default
    shape := none
    style := Style.default
    on_event := none
    dirty := true }

/-- A concrete two-element scene: root 1 with shaped child 2 (the `Frame`
the demo builds). -/
def demoScene : Scene := ⟨⟨[(1, demoRoot), (2, demoChild)]⟩, 1⟩

theorem demoScene_inv : Inv demoScene := inv_of_checkInv (by decide)

/-- The concrete removal computed once: detaching the leaf 2 is the
erase-and-unlink step alone (no children to recurse into).  (`remove_node`
is defined by well-founded recursion, which the kernel does not unfold, so
concrete instances are computed through the equation lemmas.) -/
theorem demoScene_remove_two :
    demoScene.remove_node 2 = Scene.unlinkErase demoScene 2 demoChild := by
  unfold Scene.remove_node
  rw [Scene.removeAux_cons_some (show demoScene.nodes.get 2 = some demoChild by decide)]
  exact Scene.removeAux_nil _

/-! ## The claims -/

/-- C1, counterexample: attaching an element under the absent identity 999
does not fail with the spec's recoverable `MissingParent` condition — the
call panics (`unwrap_or_else(|| panic!(..))`), crashing the caller. -/
theorem c1_counterexample :
    (Scene.new 1).add_node 999 (Node.new 2) = AttachOutcome.panicked ∧
    ∀ s, (Scene.new 1).add_node 999 (Node.new 2) ≠ AttachOutcome.missingParent s := by
  constructor
  · rfl
  · intro s h
    cases h

/-- C1, amended: for every Scene and every identity `p` absent from the
element map, attaching an element under `p` panics rather than returning a
recoverable `MissingParent` condition; the element is not inserted — the
insertion is below the panic and is never reached, so no modified Scene is
ever produced. -/
theorem c1_attach_missing_parent_panics (s : Scene) (p : Nat) (node : Node)
    (h : s.nodes.get p = none) : s.add_node p node = AttachOutcome.panicked :=
  Scene.add_node_missing node h

theorem c1_attach_missing_parent_panics_witness :
    (Scene.new 1).nodes.get 999 = none ∧
    (Scene.new 1).add_node 999 (Node.new 2) = AttachOutcome.panicked :=
  ⟨by decide, c1_attach_missing_parent_panics (Scene.new 1) 999 (Node.new 2) (by decide)⟩

/-- C2, counterexample: on a node whose dirty flag is `false`, setting the
shape (and writing the transform or style through the `_mut` accessors)
leaves `dirty = false` — the claim requires these setters to mark the
element dirty. -/
theorem c2_counterexample :
    (((Node.new 5).clear_dirty).set_shape demoRect).dirty = false ∧
    (((Node.new 5).clear_dirty).with_transform Transform.default).dirty = false ∧
    (((Node.new 5).clear_dirty).with_style Style.default).dirty = false := by
  decide

/-- C2, amended: no setter touches the dirty flag: `set_shape`/`clear_shape`
and writes through `transform_mut`/`style_mut` leave `dirty` exactly as it
was, just as setting or clearing the event handler does; `dirty` changes
only through the explicit `mark_dirty`/`clear_dirty` calls. -/
theorem c2_setters_leave_dirty (n : Node) (sh : Shape) (t : Transform)
    (st : Style) (h : EventHandler) :
    (n.set_shape sh).dirty = n.dirty ∧
    n.clear_shape.dirty = n.dirty ∧
    (n.with_transform t).dirty = n.dirty ∧
    (n.with_style st).dirty = n.dirty ∧
    (n.set_event_handler h).dirty = n.dirty ∧
    n.clear_event_handler.dirty = n.dirty ∧
    n.mark_dirty.dirty = true ∧
    n.clear_dirty.dirty = false :=
  ⟨rfl, rfl, rfl, rfl, rfl, rfl, rfl, rfl⟩

/-- C3, counterexample: element 2 of the demo scene carries a shape and the
delegate succeeds, so the pass re-tessellates it (its cache entry holds the
delegate's output) — yet the element's dirty flag still reads `true` after
the pass, where the claim requires `false`. -/
theorem c3_counterexample :
    (Renderer.renderPass okDelegate demoScene Table.empty).2.1.get 2 =
      some ⟨[⟨(0, 0)⟩]⟩ ∧
    ((Renderer.renderPass okDelegate demoScene Table.empty).1.nodes.get 2).map
      Node.dirty = some true := by
  decide

/-- C3, amended: a render pass clears no element's dirty flag at all:
`Renderer::render` takes the scene by immutable borrow, so every element —
re-tessellated or not — reads back unchanged after the pass, dirty flag
included. -/
theorem c3_render_pass_clears_no_dirty (d : Delegate) (s : Scene)
    (c : Table CachedMesh) (a : Nat) (n : Node) (h : s.nodes.get a = some n) :
    (Renderer.renderPass d s c).1.nodes.get a = some n ∧
    ((Renderer.renderPass d s c).1.nodes.get a).map Node.dirty = some n.dirty := by
  refine ⟨h, ?_⟩
  show (s.nodes.get a).map Node.dirty = some n.dirty
  rw [h]
  rfl

theorem c3_render_pass_clears_no_dirty_witness :
    (Renderer.renderPass okDelegate demoScene Table.empty).1.nodes.get 2 =
      some demoChild ∧
    ((Renderer.renderPass okDelegate demoScene Table.empty).1.nodes.get 2).map
      Node.dirty = some true :=
  c3_render_pass_clears_no_dirty okDelegate demoScene Table.empty 2 demoChild (by decide)

/-- C4, counterexample: render a frame (element 2 gets cached), detach 2,
render another frame — the cache entry for 2 is still present after the
subsequent pass, where the claim requires that no entry for a detached
identity survive. -/
theorem c4_counterexample :
    (Renderer.draw_scene okDelegate (demoScene.remove_node 2)
        (Renderer.draw_scene okDelegate demoScene Table.empty).1).1.get 2 =
      some ⟨[⟨(0, 0)⟩]⟩ := by
  rw [demoScene_remove_two]
  decide

/-- C4, amended: nothing prunes the render cache: after `detach_subtree(id)`
the cache entries of `id` and of every former descendant survive every
subsequent render pass unchanged — detached identities are never traversed,
so their entries are never overwritten, removed, or expired. -/
theorem c4_stale_cache_survives {s : Scene} (hInv : Inv s) {id : Nat} {n : Node}
    (hid : s.nodes.get id = some n) (d : Delegate) (c : Table CachedMesh) :
    ∀ b, Desc s id b →
      (Renderer.draw_scene d (s.remove_node id) c).1.get b = c.get b := by
  intro b hd
  have h1 : (s.remove_node id).nodes.get b = none :=
    Scene.remove_node_removes (Wf.of_inv hInv) hd
  exact Renderer.draw_scene_get_absent (Scene.inv_remove_node hInv id) h1 d c

theorem c4_stale_cache_survives_witness :
    (Renderer.draw_scene okDelegate (demoScene.remove_node 2)
        (Renderer.draw_scene okDelegate demoScene Table.empty).1).1.get 2 =
      (Renderer.draw_scene okDelegate demoScene Table.empty).1.get 2 :=
  @c4_stale_cache_survives demoScene demoScene_inv 2 demoChild (by decide) okDelegate
    (Renderer.draw_scene okDelegate demoScene Table.empty).1 2
    Relation.ReflTransGen.refl

/-- C5, counterexample: with a delegate that reports failure for element 2's
shape, the pass still appends 2 to the frame's draw list and still writes a
cache entry (holding the delegate's — here empty — vertex output), where
the claim requires the element skipped and left uncached. -/
theorem c5_counterexample :
    (Renderer.draw_scene failDelegate demoScene Table.empty).2 = [2] ∧
    (Renderer.draw_scene failDelegate demoScene Table.empty).1.get 2 =
      some ⟨[]⟩ := by
  decide

/-- C5, amended: the render pass ignores the tessellation delegate's failure
report (`let _ = tessellator.tessellate_path(..)`): even when the delegate
reports failure for an element's shape, the element still enters the
frame's draw list and its cache entry is overwritten with whatever vertices
the delegate produced — a failed element is treated exactly like a
successful one, and is re-tessellated on a later frame only under the
ordinary dirty-or-uncached rule. -/
theorem c5_tessellation_failure_ignored {s : Scene} (hInv : Inv s) {a : Nat}
    {n : Node} {sh : Shape} (hg : s.nodes.get a = some n)
    (hsh : n.shape = some sh) (d : Delegate) (hfail : (d sh).1 = false)
    (c₀ : Table CachedMesh) (hre : n.dirty = true ∨ c₀.get a = none) :
    (Renderer.draw_scene d s c₀).1.get a = some ⟨(d sh).2⟩ ∧
    a ∈ (Renderer.draw_scene d s c₀).2 := by
  constructor
  · rw [Renderer.draw_scene_get_shaped hInv hg hsh d c₀]
    have hcond : (n.dirty || (c₀.get a).isNone) = true := by
      rcases hre with h | h
      · rw [h]
        rfl
      · rw [h]
        simp
    rw [if_pos hcond, Renderer.tessellate_shape_eq]
  · exact Renderer.mem_drawList_shaped hInv hg hsh d c₀

theorem c5_tessellation_failure_ignored_witness :
    (Renderer.draw_scene failDelegate demoScene Table.empty).1.get 2 =
      some ⟨[]⟩ ∧
    2 ∈ (Renderer.draw_scene failDelegate demoScene Table.empty).2 :=
  @c5_tessellation_failure_ignored demoScene demoScene_inv 2 demoChild demoRect
    (by decide) (by decide) failDelegate (by decide) Table.empty (Or.inl (by decide))

/-- C6: for every finite sequence of attach and detach-subtree operations
starting from a freshly created Scene, the §3 invariants hold after every
operation: every non-root element's parent exists in the element map, each
element's identity appears exactly once in its parent's children list, and
the parent/children relation forms a tree — no cycles and no shared
parents.  (Quantifying over all `ops` covers every intermediate state,
since each prefix is itself a sequence.) -/
theorem c6_invariants_hold (k : Nat) (ops : List Op) :
    SpecInvariants (applyOps (initSt k) ops).scene :=
  specInvariants_of_inv (stInv_applyOps (stInv_init k) ops).1

/-- C7: on each frame, for every traversed element carrying a shape the
pass invokes the delegate and overwrites the cache entry iff the element is
dirty or uncached (first conjunct: regenerated exactly then; second: a
clean, cached element's entry is preserved identically); elements without a
shape never touch the cache and never enter the draw list; and the draw
list is exactly the shaped elements in traversal order. -/
theorem c7_cache_refresh_policy {s : Scene} (hInv : Inv s) (d : Delegate)
    (c₀ : Table CachedMesh) :
    (∀ a n sh, s.nodes.get a = some n → n.shape = some sh →
      ((n.dirty = true ∨ c₀.get a = none) →
        (Renderer.draw_scene d s c₀).1.get a =
          some ⟨Renderer.tessellate_shape d sh⟩) ∧
      (n.dirty = false → ∀ mesh, c₀.get a = some mesh →
        (Renderer.draw_scene d s c₀).1.get a = some mesh)) ∧
    (∀ a n, s.nodes.get a = some n → n.shape = none →
      (Renderer.draw_scene d s c₀).1.get a = c₀.get a ∧
      a ∉ (Renderer.draw_scene d s c₀).2) ∧
    (Renderer.draw_scene d s c₀).2 =
      (s.traverseList.filter (fun n => n.shape.isSome)).map Node.id := by
  refine ⟨?_, ?_, Renderer.draw_scene_drawList d s c₀⟩
  · intro a n sh hg hsh
    constructor
    · intro hre
      rw [Renderer.draw_scene_get_shaped hInv hg hsh d c₀]
      have hcond : (n.dirty || (c₀.get a).isNone) = true := by
        rcases hre with h | h
        · rw [h]
          rfl
        · rw [h]
          simp
      rw [if_pos hcond]
    · intro hclean mesh hmesh
      rw [Renderer.draw_scene_get_shaped hInv hg hsh d c₀]
      have hcond : (n.dirty || (c₀.get a).isNone) = false := by
        rw [hclean, hmesh]
        rfl
      rw [if_neg (by rw [hcond]; exact Bool.false_ne_true), hmesh]
  · intro a n hg hsh
    exact ⟨Renderer.draw_scene_get_shapeless hInv hg hsh d c₀,
      Renderer.not_mem_drawList_shapeless hInv hg hsh d c₀⟩

theorem c7_cache_refresh_policy_witness :
    (Renderer.draw_scene okDelegate demoScene Table.empty).1.get 2 =
      some ⟨[⟨(0, 0)⟩]⟩ ∧
    (Renderer.draw_scene okDelegate demoScene Table.empty).1.get 1 =
      Table.empty.get 1 ∧
    (Renderer.draw_scene okDelegate demoScene Table.empty).2 = [2] := by
  have h := c7_cache_refresh_policy demoScene_inv okDelegate Table.empty
  refine ⟨?_, ?_, ?_⟩
  · exact ((h.1 2 demoChild demoRect (by decide) (by decide)).1 (Or.inl (by decide)))
  · exact (h.2.1 1 demoRoot (by decide) (by decide)).1
  · rw [h.2.2]
    decide

/-- C8: for every identity present in the scene, `detach_subtree` removes
it and every descendant from the element map; it removes the identity from
its former parent's children list (the parent survives with exactly its old
children minus the detached one); when the node has no parent (the root
case) every node outside the detached subtree is untouched, making the
unlink step a no-op; and no removed identity is visited by a subsequent
traversal. -/
theorem c8_detach_removes_subtree {s : Scene} (hInv : Inv s) {id : Nat}
    {n : Node} (hid : s.nodes.get id = some n) :
    (∀ b, Desc s id b → (s.remove_node id).nodes.get b = none) ∧
    (∀ p, n.parent = some p → ∃ pn, s.nodes.get p = some pn ∧
      (s.remove_node id).nodes.get p = some (pn.remove_child id) ∧
      id ∉ (pn.remove_child id).children) ∧
    (n.parent = none → ∀ b, ¬ Desc s id b →
      (s.remove_node id).nodes.get b = s.nodes.get b) ∧
    (∀ b, Desc s id b → ∀ m ∈ (s.remove_node id).traverseList, m.id ≠ b) := by
  have hw : Wf s := Wf.of_inv hInv
  have hInv' : Inv (s.remove_node id) := Scene.inv_remove_node hInv id
  refine ⟨fun b hd => Scene.remove_node_removes hw hd, ?_, ?_, ?_⟩
  · intro p hp
    have hidroot : id ≠ s.root := by
      rintro rfl
      rw [hInv.rootParent n hid] at hp
      cases hp
    obtain ⟨p', pn, hp', hgp, hmem⟩ := hInv.parentUp id n hid hidroot
    rw [hp] at hp'
    injection hp' with hp'
    subst hp'
    have hndp : ¬ Desc s id p := fun hd =>
      not_desc_child_self hw ⟨pn, hgp, hmem⟩ hd
    have hex := Scene.remove_node_exact hInv hid p hndp
    rw [hp] at hex
    simp only [if_pos rfl] at hex
    rw [hgp] at hex
    simp only [Option.map_some'] at hex
    refine ⟨pn, hgp, hex, ?_⟩
    simp [Node.remove_child, List.mem_filter]
  · intro hp b hnd
    have hex := Scene.remove_node_exact hInv hid b hnd
    rw [hp] at hex
    exact hex
  · intro b hd m hm hmb
    obtain ⟨b', hb', _⟩ := Scene.mem_traverseAux hm
    have : m.id = b' := hInv'.idSelf b' m hb'
    rw [hmb] at this
    rw [← this] at hb'
    rw [Scene.remove_node_removes hw hd] at hb'
    cases hb'

theorem c8_detach_removes_subtree_witness :
    ((demoScene.remove_node 2).nodes.get 2 = none) ∧
    (∃ pn, demoScene.nodes.get 1 = some pn ∧
      (demoScene.remove_node 2).nodes.get 1 = some (pn.remove_child 2) ∧
      2 ∉ (pn.remove_child 2).children) := by
  have h := @c8_detach_removes_subtree demoScene demoScene_inv 2 demoChild (by decide)
  exact ⟨h.1 2 Relation.ReflTransGen.refl, h.2.1 1 (by decide)⟩

/-- C9: read-only traversal visits exactly the currently-attached elements,
each exactly once (the visited id list has no duplicates and contains an id
iff it is in the element map), in depth-first pre-order: every node is
visited strictly before each of its children, and the visit order restricted
to any node's children is exactly their stored (attach) order. -/
theorem c9_traversal_preorder {s : Scene} (hInv : Inv s) :
    (s.traverseList.map Node.id).Nodup ∧
    (∀ b, b ∈ s.traverseList.map Node.id ↔ ∃ m, s.nodes.get b = some m) ∧
    (∀ x nx c, s.nodes.get x = some nx → c ∈ nx.children →
      (s.traverseList.map Node.id).indexOf x <
        (s.traverseList.map Node.id).indexOf c) ∧
    (∀ x nx, s.nodes.get x = some nx →
      (s.traverseList.map Node.id).filter (fun y => decide (y ∈ nx.children)) =
        nx.children) := by
  refine ⟨Renderer.nodup_ids_traverseList hInv, Scene.mem_ids_traverseList_iff hInv,
    ?_, ?_⟩
  · intro x nx c hx hc
    have hxmem : x ∈ s.traverseList.map Node.id :=
      (Scene.mem_ids_traverseList_iff hInv x).2 ⟨nx, hx⟩
    obtain ⟨mc, hmc, _⟩ := hInv.childrenBack x nx c hx hc
    have hcmem : c ∈ s.traverseList.map Node.id :=
      (Scene.mem_ids_traverseList_iff hInv c).2 ⟨mc, hmc⟩
    exact Scene.traverse_order hInv s.nodes.size s.root hx hc hxmem hcmem
  · intro x nx hx
    have hxmem : x ∈ s.traverseList.map Node.id :=
      (Scene.mem_ids_traverseList_iff hInv x).2 ⟨nx, hx⟩
    refine Scene.traverse_filter_children hInv s.nodes.size s.root hx hxmem ?_
    intro c hc
    obtain ⟨mc, hmc, _⟩ := hInv.childrenBack x nx c hx hc
    exact (Scene.mem_ids_traverseList_iff hInv c).2 ⟨mc, hmc⟩

theorem c9_traversal_preorder_witness :
    (demoScene.traverseList.map Node.id).Nodup ∧
    demoScene.traverseList.map Node.id = [1, 2] := by
  have h := c9_traversal_preorder demoScene_inv
  exact ⟨h.1, by decide⟩

/-- C10: detaching an identity absent from the element map is a total
no-op — the Scene is returned completely unchanged — and `detach_subtree`
is idempotent: detaching the same identity twice yields exactly the Scene
obtained by detaching it once. -/
theorem c10_detach_noop_idempotent (s : Scene) (id : Nat) :
    (s.nodes.get id = none → s.remove_node id = s) ∧
    (s.remove_node id).remove_node id = s.remove_node id :=
  ⟨fun h => Scene.remove_node_absent h, Scene.remove_node_idem s id⟩

theorem c10_detach_noop_idempotent_witness :
    (Scene.new 1).remove_node 999 = Scene.new 1 ∧
    ((Scene.new 1).remove_node 999).remove_node 999 =
      (Scene.new 1).remove_node 999 :=
  ⟨(c10_detach_noop_idempotent (Scene.new 1) 999).1 (by decide),
   (c10_detach_noop_idempotent (Scene.new 1) 999).2⟩

end Ardent
